import Mathlib

/-!
Verification development for the graph execution runner of the repository
(`src/backend/api/runner.py`) and its run-admission helpers
(`src/backend/api/db.py`).  The Python functions are shallowly embedded as
executable Lean definitions; machine-checkable theorems about the embedding
settle the specification claims.
-/

namespace EchoVoice

/-- An edge of the persisted graph configuration, a dict with keys
`from` and `to` in the source. -/
structure Edge where
  frm : String
  /-- the `to` key of the edge dict (`to` is reserved in Lean) -/
  tgt : String
deriving DecidableEq, Repr

/-- The graph configuration: the declared node ids (the keys of `nodes_cfg`)
and the edge list. -/
structure GraphConfig where
  nodes : List String
  edges : List Edge
deriving DecidableEq, Repr

/-- The mutable run state: a string-keyed dictionary.  Values are abstracted
as strings. -/
abbrev RunState := List (String × String)

/-- Dictionary assignment: bind the key to the new value, dropping any old
binding.  Dictionaries are observed only through `listGet?`, for which this
is the assignment of the source dicts. -/
def listSet {α : Type} (m : List (String × α)) (k : String) (v : α) :
    List (String × α) :=
  (k, v) :: m.filter (fun p => !(p.1 == k))

/-- Dictionary lookup. -/
def listGet? {α : Type} (m : List (String × α)) (k : String) : Option α :=
  (m.find? (fun p => p.1 == k)).map (·.2)

/-- The shallow merge `state.update(out)`: last writer wins per key. -/
def updState (st out : RunState) : RunState :=
  out.foldl (fun acc p => listSet acc p.1 p.2) st

/-- A node callable: given the state it returns an update dict, or raises an
exception carrying a message.  A `None` return is normalized to an empty
update dict by the caller, modelled as `Except.ok []`. -/
abbrev NodeFn := RunState → Except String RunState

/-- The wrapper around one node invocation: a raised exception is converted
into the dict mapping the key `error` to the exception message. -/
def invoke_node (fn : NodeFn) (st : RunState) : RunState :=
  match fn st with
  | .ok out => out
  | .error e => [("error", e)]

/-- One entry of the run log: the node id and the recorded output dict. -/
structure LogEntry where
  node : String
  output : RunState
deriving DecidableEq, Repr

/-- The execution environment of one run: the graph configuration, the
resolved callable table (`NODE_CALLABLES`, with `none` for a node id whose
callable cannot be resolved) and the router table (`ROUTERS`; a router
returns the chosen successor id, with `none` modelling an exception raised
inside the router). -/
structure RunEnv where
  cfg : GraphConfig
  callables : String → Option NodeFn
  routers : String → Option (RunState → Option String)

/-- The distinct non-START predecessors of a node, in first-occurrence
order: the set `preds[n]` built while scanning the edge list. -/
def predsList (g : GraphConfig) (n : String) : List String :=
  ((g.edges.filter (fun e => e.tgt == n && e.frm != "START")).map (·.frm)).dedup

/-- The predecessor set as a finite set (for counting arguments). -/
def predsOf (g : GraphConfig) (n : String) : Finset String :=
  (predsList g n).toFinset

/-- The in-degree table, a dictionary from node id to a count. -/
abbrev DegMap := List (String × Nat)

/-- `in_deg.get(k, 0)`. -/
def degGet (m : DegMap) (k : String) : Nat := (listGet? m k).getD 0

/-- `in_deg[k] = v`. -/
def degSet (m : DegMap) (k : String) (v : Nat) : DegMap := listSet m k v

/-- Initial in-degree table: every declared node id maps to the number of its
distinct non-START predecessors. -/
def initInDeg (g : GraphConfig) : DegMap :=
  g.nodes.dedup.map (fun n => (n, (predsList g n).length))

/-- The frontier seed: the targets of all edges leaving `START`, in edge-list
order, duplicates included. -/
def seedFrontier (g : GraphConfig) : List String :=
  (g.edges.filter (fun e => e.frm == "START")).map (·.tgt)

/-- The outgoing edges of a node, in edge-list order (`adj[n]`). -/
def edgesFrom (g : GraphConfig) (n : String) : List Edge :=
  g.edges.filter (fun e => e.frm == n)

/-- `total_nodes`: the number of declared node ids (dict keys are distinct). -/
def totalNodes (g : GraphConfig) : Nat := g.nodes.dedup.length

/-- The scheduler state carried through the main loop. -/
structure SchedState where
  frontier : List String
  processed : List String
  state : RunState
  logs : List LogEntry
  deg : DegMap
deriving Repr

/-- Add an id to the processed set, kept as a duplicate-free list. -/
def addProc (ps : List String) (n : String) : List String :=
  if ps.contains n then ps else ps ++ [n]

/-- The log entry recorded for a node whose callable cannot be resolved. -/
def unknownEntry (n : String) : LogEntry :=
  ⟨n, [("error", "unknown node callable")]⟩

/-- The task-collection loop of one pass: a frontier node without a resolvable
callable is logged with an error entry and marked processed at once; the
others are collected, in order, for execution. -/
def collectPhase (env : RunEnv) :
    List String → List LogEntry → List String →
      List String × List LogEntry × List String
  | [], logs, ps => ([], logs, ps)
  | n :: rest, logs, ps =>
    match env.callables n with
    | none => collectPhase env rest (logs ++ [unknownEntry n]) (addProc ps n)
    | some _ =>
      let r := collectPhase env rest logs ps
      (n :: r.1, r.2.1, r.2.2)

/-- Execute the collected tasks in order: invoke the callable on the current
state, merge its output into the state, and append the log entry. -/
def execTasks (env : RunEnv) :
    List String → RunState → List LogEntry → RunState × List LogEntry
  | [], st, logs => (st, logs)
  | n :: rest, st, logs =>
    match env.callables n with
    | none => execTasks env rest st logs
    | some fn =>
      let out := invoke_node fn st
      execTasks env rest (updState st out) (logs ++ [⟨n, out⟩])

/-- Whether an outgoing edge of `n` is followed: for a router node only the
edge whose target matches the router output, otherwise always. -/
def followEdge (env : RunEnv) (n : String) (st : RunState) (e : Edge) : Bool :=
  match env.routers n with
  | some r => decide (r st = some e.tgt)
  | none => true

/-- Handle the outgoing edges of one completed frontier node.  For a router
node only the edge matching the router output is followed; a plain edge is
followed unconditionally.  A followed edge decrements the in-degree of its
target (floored at zero); a target whose stored in-degree reaches zero is
appended to the frontier. -/
def procEdges (env : RunEnv) (n : String) (st : RunState) :
    List Edge → DegMap → List String → DegMap × List String
  | [], deg, fr => (deg, fr)
  | e :: rest, deg, fr =>
    if followEdge env n st e then
      let d := degGet deg e.tgt - 1
      procEdges env n st rest (degSet deg e.tgt d)
        (if d == 0 then fr ++ [e.tgt] else fr)
    else procEdges env n st rest deg fr

/-- The successor phase of one pass: mark every frontier node processed and
handle its outgoing edges, accumulating frontier appends. -/
def succPhase (env : RunEnv) (st : RunState) :
    List String → List String → DegMap → List String →
      List String × DegMap × List String
  | [], ps, deg, fr => (ps, deg, fr)
  | n :: rest, ps, deg, fr =>
    let r := procEdges env n st (edgesFrom env.cfg n) deg fr
    succPhase env st rest (addProc ps n) r.1 r.2

/-- One full scheduling pass over the filtered frontier `F`: collect, execute
all tasks, run the successor phase over the whole frontier (the appends start
from `F` itself), and prune everything already processed. -/
def runPass (env : RunEnv) (F : List String) (s : SchedState) : SchedState :=
  let c := collectPhase env F s.logs s.processed
  let e := execTasks env c.1 s.state c.2.1
  let u := succPhase env e.1 F c.2.2 s.deg F
  { frontier := u.2.2.filter (fun n => !(u.1.contains n)),
    processed := u.1,
    state := e.1,
    logs := e.2,
    deg := u.2.1 }

/-- The frontier filter applied at the start of each pass: drop empty ids and
ids already processed. -/
def filtFrontier (s : SchedState) : List String :=
  s.frontier.filter (fun n => !(n == "") && !(s.processed.contains n))

/-- The main execution loop, with explicit fuel.  The loop exits when the
frontier is empty, when the filtered frontier is empty, or when the number of
processed ids reaches the number of declared nodes (the safety break). -/
def runLoop (env : RunEnv) : Nat → SchedState → Option SchedState
  | 0, _ => none
  | fuel + 1, s =>
    if s.frontier.isEmpty then some s
    else if (filtFrontier s).isEmpty then some { s with frontier := [] }
    else if totalNodes env.cfg ≤
        (runPass env (filtFrontier s) s).processed.length then
      some (runPass env (filtFrontier s) s)
    else runLoop env fuel (runPass env (filtFrontier s) s)

/-- Every id that can ever enter the frontier: edge targets and declared
nodes, without duplicates. -/
def idList (g : GraphConfig) : List String :=
  ((g.edges.map (·.tgt)) ++ g.nodes).dedup

/-- The observable outcome of a run: final status, the ordered node log, and
the final merged state recorded as the result. -/
structure RunOutcome where
  status : String
  logs : List LogEntry
  result : RunState
deriving DecidableEq, Repr

/-- The scheduler state at the start of a run. -/
def initSched (env : RunEnv) (init : RunState) : SchedState :=
  { frontier := seedFrontier env.cfg, processed := [], state := init,
    logs := [], deg := initInDeg env.cfg }

/-- Fuel that always suffices for the loop (proved below): one pass per
distinct id plus one. -/
def runFuel (g : GraphConfig) : Nat := (idList g).length + 1

/-- Run the scheduling loop to completion. -/
def run_sched (env : RunEnv) (init : RunState) : Option SchedState :=
  runLoop env (runFuel env.cfg) (initSched env init)

/-- `run_graph`: execute the graph.  When the loop exits, the run is
finalized with status `finished` and the merged state as the result; no
other status is ever produced by the normal control flow. -/
def run_graph (env : RunEnv) (init : RunState) : Option RunOutcome :=
  (run_sched env init).map (fun s => ⟨"finished", s.logs, s.state⟩)

/-! ### Run admission, dispatcher and cancellation (`start_async_run`,
`_maybe_start_queued_runs`, `cancel_run` and the `db` helpers) -/

/-- A persisted run record (`RunModel`): id and status. -/
structure DBRun where
  id : String
  status : String
deriving DecidableEq, Repr

/-- The persisted run table, in creation order (ascending `created_at`). -/
abbrev DBStore := List DBRun

/-- `count_active_runs`: the number of persisted runs whose status is
`running` or `cancelling`. -/
def count_active_runs (s : DBStore) : Nat :=
  (s.filter (fun r => r.status == "running" || r.status == "cancelling")).length

/-- `get_queued_runs(limit)`: the queued runs, oldest first, truncated to the
limit. -/
def get_queued_runs (limit : Nat) (s : DBStore) : List DBRun :=
  (s.filter (fun r => r.status == "queued")).take limit

/-- `create_run`: append a new persisted record. -/
def create_run (s : DBStore) (runId status : String) : DBStore :=
  s ++ [⟨runId, status⟩]

/-- `update_run_status`: set the status of the record with the given primary
key. -/
def update_run_status (s : DBStore) (runId status : String) : DBStore :=
  s.map (fun r => if r.id == runId then ⟨r.id, status⟩ else r)

/-- The admission decision of a submission. -/
inductive Admission where
  | started
  | queued
deriving DecidableEq, Repr

/-- Process-local dispatcher state: the persisted store, the ids with a live
task (`RUN_TASKS`) and the ids known in memory (`EXEC_RUNS`). -/
structure DispatchSt where
  store : DBStore
  tasks : List String
  localRuns : List String
deriving DecidableEq, Repr

/-- `start_async_run`: record the run in memory, then decide admission.  With
the store available, the run is persisted as queued when the active count has
reached the cap and no task is started; otherwise it is persisted as running
and its task starts.  Without a store there is no capacity check at all: the
task always starts. -/
def start_async_run (useDB : Bool) (maxConc : Nat) (d : DispatchSt)
    (runId : String) : Admission × DispatchSt :=
  let d0 : DispatchSt := { d with localRuns := addProc d.localRuns runId }
  if useDB then
    let active := count_active_runs d0.store
    if maxConc ≤ active then
      (.queued, { d0 with store := create_run d0.store runId "queued" })
    else
      (.started, { d0 with store := create_run d0.store runId "running",
                           tasks := d0.tasks ++ [runId] })
  else (.started, { d0 with tasks := d0.tasks ++ [runId] })

/-- `_maybe_start_queued_runs`: when capacity is free, fetch up to that many
queued runs (oldest first) and flip each to running.  A task is created for a
fetched run only when it has neither a live task nor an in-memory record. -/
def maybe_start_queued (maxConc : Nat) (d : DispatchSt) : DispatchSt :=
  let active := count_active_runs d.store
  if maxConc ≤ active then d
  else
    (get_queued_runs (maxConc - active) d.store).foldl
      (fun acc q =>
        let acc' : DispatchSt :=
          { acc with store := update_run_status acc.store q.id "running" }
        if !(acc.tasks.contains q.id) && !(acc.localRuns.contains q.id) then
          { acc' with tasks := acc'.tasks ++ [q.id],
                      localRuns := acc'.localRuns ++ [q.id] }
        else acc')
      d

/-- The terminal transition of a running task (the finalization paths of
`run_graph`): persist the terminal status, drop the finished task, and invoke
the dispatcher to reclaim capacity. -/
def finish_run (maxConc : Nat) (d : DispatchSt) (runId final : String) :
    DispatchSt :=
  maybe_start_queued maxConc
    { d with store := update_run_status d.store runId final,
             tasks := d.tasks.filter (fun t => !(t == runId)) }

/-- In-memory run metadata (`EXEC_RUNS[run_id]`). -/
structure ExecMeta where
  status : String
  logs : List LogEntry
  result : Option RunState
deriving DecidableEq, Repr

/-- The terminal statuses. -/
def isTerminal (st : String) : Bool :=
  st == "finished" || st == "failed" || st == "cancelled"

/-- Cancellation-coordinator state: the task table with a done flag per task,
and the in-memory run table. -/
structure CancelSt where
  tasks : List (String × Bool)
  runs : List (String × ExecMeta)
deriving DecidableEq, Repr

/-- Set the in-memory status of a run. -/
def setRunStatus (runs : List (String × ExecMeta)) (runId status : String) :
    List (String × ExecMeta) :=
  runs.map (fun p => if p.1 == runId then (p.1, { p.2 with status := status }) else p)

/-- `cancel_run`: with no live task, a known non-terminal run is marked
cancelled (true) and anything else is a no-op (false); a live task that is
already done is a no-op (false); otherwise cancellation is requested and the
status becomes cancelling (true). -/
def cancel_run (s : CancelSt) (runId : String) : Bool × CancelSt :=
  match s.tasks.find? (fun t => t.1 == runId) with
  | none =>
    match s.runs.find? (fun p => p.1 == runId) with
    | some p =>
      if isTerminal p.2.status then (false, s)
      else (true, { s with runs := setRunStatus s.runs runId "cancelled" })
    | none => (false, s)
  | some t =>
    if t.2 then (false, s)
    else (true, { s with runs := setRunStatus s.runs runId "cancelling" })

/-! ### Concrete environments used by counterexamples and witnesses -/

/-- A callable that succeeds with an empty update. -/
def okFn : NodeFn := fun _ => .ok []

/-- A callable that raises with the given message. -/
def raiseFn (msg : String) : NodeFn := fun _ => .error msg

/-- A callable table assigning `okFn` to every id. -/
def allOk : String → Option NodeFn := fun _ => some okFn

/-- An empty router table. -/
def noRouters : String → Option (RunState → Option String) := fun _ => none

/-- Cyclic graph of claim C1: `START→A`, `A→B`, `B→A`. -/
def cycCfg : GraphConfig :=
  ⟨["A", "B"], [⟨"START", "A"⟩, ⟨"A", "B"⟩, ⟨"B", "A"⟩]⟩

def cycEnv : RunEnv := ⟨cycCfg, allOk, noRouters⟩

/-- Join graph with a duplicated edge `A→J` (claim C2): predecessors of `J`
are `{A, B, C}`, and `C` completes only in the third pass. -/
def dupJoinCfg : GraphConfig :=
  ⟨["A", "B", "C", "D", "E", "J"],
   [⟨"START", "A"⟩, ⟨"START", "B"⟩, ⟨"START", "D"⟩,
    ⟨"A", "J"⟩, ⟨"A", "J"⟩, ⟨"B", "J"⟩, ⟨"C", "J"⟩,
    ⟨"D", "E"⟩, ⟨"E", "C"⟩]⟩

def dupJoinEnv : RunEnv := ⟨dupJoinCfg, allOk, noRouters⟩

/-- Clean join graph (witness for the amended C2): `J` joins `A`, `B`, `C`. -/
def joinCfg : GraphConfig :=
  ⟨["A", "B", "C", "J"],
   [⟨"START", "A"⟩, ⟨"START", "B"⟩, ⟨"START", "C"⟩,
    ⟨"A", "J"⟩, ⟨"B", "J"⟩, ⟨"C", "J"⟩]⟩

def joinEnv : RunEnv := ⟨joinCfg, allOk, noRouters⟩

/-- Duplicate START edges (claim C3): `A` is seeded twice. -/
def dupSeedCfg : GraphConfig := ⟨["A"], [⟨"START", "A"⟩, ⟨"START", "A"⟩]⟩

def dupSeedEnv : RunEnv := ⟨dupSeedCfg, allOk, noRouters⟩

/-- Simple chain (witness for the amended C3). -/
def chainCfg : GraphConfig := ⟨["A", "B"], [⟨"START", "A"⟩, ⟨"A", "B"⟩]⟩

def chainEnv : RunEnv := ⟨chainCfg, allOk, noRouters⟩

/-- Router table sending the given router node to the constant target. -/
def constRouter (router target : String) :
    String → Option (RunState → Option String) :=
  fun n => if n = router then some (fun _ => some target) else none

/-- Router graph where the safety break strands the chosen branch (claim C4):
`Z` is an edge target that is not a declared node and has no resolvable
callable, so processing `R` and `Z` already reaches `total_nodes = 2` and the
loop breaks before the appended `Y` runs. -/
def breakRouterCfg : GraphConfig :=
  ⟨["R", "Y"],
   [⟨"START", "R"⟩, ⟨"START", "Z"⟩, ⟨"R", "X"⟩, ⟨"R", "Y"⟩]⟩

def breakRouterEnv : RunEnv :=
  ⟨breakRouterCfg, fun n => if n = "Z" then none else some okFn,
   constRouter "R" "Y"⟩

/-- Clean router graph (witness for the amended C4): `R` routes to `Y`;
`X` must never be scheduled. -/
def routerCfg : GraphConfig :=
  ⟨["R", "X", "Y"], [⟨"START", "R"⟩, ⟨"R", "X"⟩, ⟨"R", "Y"⟩]⟩

def routerEnv : RunEnv := ⟨routerCfg, allOk, constRouter "R" "Y"⟩

/-- Failing-node graph where the safety break strands the downstream node
(claim C5): `W` is an undeclared edge target with a resolvable callable, so
`total_nodes = 2` is reached after the first pass and `B` never runs. -/
def breakErrCfg : GraphConfig :=
  ⟨["A", "B"], [⟨"START", "A"⟩, ⟨"START", "W"⟩, ⟨"A", "B"⟩]⟩

def breakErrEnv : RunEnv :=
  ⟨breakErrCfg,
   fun n => if n = "A" then some (raiseFn "boom") else some okFn,
   noRouters⟩

/-- Clean failing-node graph (witness for the amended C5): `A` raises,
`B` depends only on `A`. -/
def errChainCfg : GraphConfig := ⟨["A", "B"], [⟨"START", "A"⟩, ⟨"A", "B"⟩]⟩

def errChainEnv : RunEnv :=
  ⟨errChainCfg,
   fun n => if n = "A" then some (raiseFn "boom") else some okFn,
   noRouters⟩

/-- Graph with an unresolvable callable (claim C7). -/
def unknownCfg : GraphConfig := ⟨["A"], [⟨"START", "A"⟩]⟩

def unknownEnv : RunEnv := ⟨unknownCfg, fun _ => none, noRouters⟩

/-- Error-propagation graph for claim C10, parameterized by the raised
message: `A` raises, `B` copies the `error` key it observes into `seen`, and
`C` overwrites the `error` key with a successful output. -/
def propCfg : GraphConfig :=
  ⟨["A", "B", "C"], [⟨"START", "A"⟩, ⟨"A", "B"⟩, ⟨"B", "C"⟩]⟩

def propEnv (msg : String) : RunEnv :=
  ⟨propCfg,
   fun n =>
     if n = "A" then some (raiseFn msg)
     else if n = "B" then
       some (fun st => .ok [("seen", (listGet? st "error").getD "missing")])
     else if n = "C" then some (fun _ => .ok [("error", "overwritten")])
     else none,
   noRouters⟩

/-- Cancellation scenario for claim C9: a finished run with its task done
and another unrelated live task. -/
def c9Terminal : CancelSt :=
  ⟨[("t1", true)], [("r1", ⟨"finished", [], none⟩)]⟩

/-- Dispatcher scenario for claim C6: cap one, submit two runs with the
store available. -/
def c6AfterSubmits : DispatchSt :=
  (start_async_run true 1 (start_async_run true 1 ⟨[], [], []⟩ "r1").2 "r2").2

/-- The same scenario after the first run finishes and the dispatcher
reclaims capacity. -/
def c6AfterFinish : DispatchSt := finish_run 1 c6AfterSubmits "r1" "finished"

/-! ### Invariants used in the proofs -/

/-- Well-formedness hypotheses of the amended scheduling claims: the edge
list holds no duplicate edge and every edge target is a declared node. -/
def GoodCfg (g : GraphConfig) : Prop :=
  g.edges.Nodup ∧ ∀ e ∈ g.edges, e.tgt ∈ g.nodes

/-- The number of predecessors of `n` not yet processed. -/
def remCount (g : GraphConfig) (n : String) (ps : List String) : Nat :=
  ((predsOf g n).filter (fun x => x ∉ ps)).card

/-- Bookkeeping for the in-degree invariant: the predecessors of `J` already
processed (skipped unresolvable nodes) whose outgoing edges are still to be
handled in the current successor phase. -/
def debt (g : GraphConfig) (J : String) (ps ns : List String) : Nat :=
  (ns.filter (fun x => decide (x ∈ predsList g J) && ps.contains x)).length

/-- Basic invariant of the scheduling loop: the processed list is
duplicate-free and both the processed list and the frontier only mention
known ids. -/
def BaseInv (env : RunEnv) (s : SchedState) : Prop :=
  s.processed.Nodup ∧ (∀ x ∈ s.processed, x ∈ idList env.cfg) ∧
    (∀ x ∈ s.frontier, x ∈ idList env.cfg)

/-- Every processed id has at least one log entry. -/
def LogInv (s : SchedState) : Prop :=
  ∀ x ∈ s.processed, x ∈ s.logs.map (·.node)

/-- Every node name occurring in the log is processed. -/
def LogNodesInv (s : SchedState) : Prop :=
  ∀ x ∈ s.logs.map (·.node), x ∈ s.processed

/-- When every edge target is declared, the frontier and the processed list
only mention declared nodes. -/
def NodesInv (env : RunEnv) (s : SchedState) : Prop :=
  (∀ x ∈ s.processed, x ∈ env.cfg.nodes) ∧ (∀ x ∈ s.frontier, x ∈ env.cfg.nodes)

/-- Core invariant for the join and idempotence claims (holds under
`GoodCfg`): the nonempty ids of the frontier are duplicate-free, the stored
in-degree of every non-seeded node dominates its unprocessed-predecessor
count, and every nonempty seeded node is in the frontier or processed. -/
def CoreInv (env : RunEnv) (s : SchedState) : Prop :=
  (s.frontier.filter (fun n => !(n == ""))).Nodup ∧
    (∀ J, J ∉ seedFrontier env.cfg →
      remCount env.cfg J s.processed ≤ degGet s.deg J) ∧
    (∀ T ∈ seedFrontier env.cfg, T ≠ "" → T ∈ s.frontier ∨ T ∈ s.processed)

/-- Join invariant for a fixed node `J`: whenever `J` is in the frontier all
its predecessors are processed, and every log entry of `J` is preceded by a
log entry of every predecessor. -/
def JoinInv (env : RunEnv) (J : String) (s : SchedState) : Prop :=
  (J ∈ s.frontier → ∀ X ∈ predsList env.cfg J, X ∈ s.processed) ∧
    (∀ out l1 l2, s.logs = l1 ++ LogEntry.mk J out :: l2 →
      ∀ X ∈ predsList env.cfg J, ∃ e ∈ l1, e.node = X)

/-- Idempotence invariant: the node names of the log are duplicate-free and
every logged node is processed. -/
def OnceInv (s : SchedState) : Prop :=
  (s.logs.map (·.node)).Nodup ∧ ∀ x ∈ s.logs.map (·.node), x ∈ s.processed

/-- Invariant of the unchosen router branch `X`: never in the frontier,
never processed, and its stored in-degree is untouched. -/
def SkipInv (env : RunEnv) (X : String) (s : SchedState) : Prop :=
  X ∉ s.frontier ∧ X ∉ s.processed ∧
    degGet s.deg X = degGet (initInDeg env.cfg) X

/-- Liveness invariant for a node `Q` whose only predecessor is `P` along an
always-followed edge: once `P` is processed, `Q` is processed or scheduled;
before that, `Q` is untouched with stored in-degree one. -/
def LiveInv (P Q : String) (s : SchedState) : Prop :=
  (P ∈ s.processed → Q ∈ s.processed ∨ Q ∈ s.frontier) ∧
    (P ∉ s.processed → Q ∉ s.processed ∧ Q ∉ s.frontier ∧ degGet s.deg Q = 1)

/-- Log-shape invariant for claim C7: an entry of a node without a resolvable
callable always carries the unknown-callable error record. -/
def UnknownShapeInv (env : RunEnv) (s : SchedState) : Prop :=
  ∀ e ∈ s.logs, env.callables e.node = none →
    e.output = [("error", "unknown node callable")]

/-- Log-shape invariant for claim C5: every entry of the failing node `A`
records an error dict. -/
def ErrShapeInv (A : String) (s : SchedState) : Prop :=
  ∀ e ∈ s.logs, e.node = A → ∃ m, e.output = [("error", m)]

/-! ### Named intermediate stages of one pass (for the proofs) -/

/-- The frontier nodes with a resolvable callable (the collected tasks). -/
def passTasks (env : RunEnv) (F : List String) : List String :=
  F.filter (fun n => (env.callables n).isSome)

/-- The frontier nodes without a resolvable callable. -/
def passUnknowns (env : RunEnv) (F : List String) : List String :=
  F.filter (fun n => (env.callables n).isNone)

/-- State and log after the execution phase of one pass. -/
def passExec (env : RunEnv) (F : List String) (s : SchedState) :
    RunState × List LogEntry :=
  execTasks env (passTasks env F) s.state
    (s.logs ++ (passUnknowns env F).map unknownEntry)

/-- Processed set, in-degree table and unpruned frontier after the successor
phase of one pass. -/
def passSucc (env : RunEnv) (F : List String) (s : SchedState) :
    List String × DegMap × List String :=
  succPhase env (passExec env F s).1 F
    ((passUnknowns env F).foldl addProc s.processed) s.deg F

/-! ## Helper lemmas -/

/-! ### Dictionary lemmas -/

theorem listGet?_listSet_self {α : Type} (m : List (String × α)) (k : String)
    (v : α) : listGet? (listSet m k v) k = some v := by
  simp [listSet, listGet?, List.find?]

theorem find?_filter_other {α : Type} (m : List (String × α)) (k k' : String)
    (h : k' ≠ k) :
    (m.filter (fun p => !(p.1 == k))).find? (fun p => p.1 == k') =
      m.find? (fun p => p.1 == k') := by
  induction m with
  | nil => simp
  | cons p t ih =>
    by_cases hp : p.1 = k
    · have hdrop : ¬((fun q => !((q : String × α).1 == k)) p = true) := by simp [hp]
      have h1 : ¬((fun q => ((q : String × α).1 == k')) p = true) := by
        simp only [beq_iff_eq]
        exact fun hc => h (hc ▸ hp)
      rw [@List.filter_cons_of_neg _ (fun q => !(q.1 == k)) p t hdrop,
        List.find?_cons_of_neg t h1]
      exact ih
    · have hkeep : (fun q => !((q : String × α).1 == k)) p = true := by simp [hp]
      rw [@List.filter_cons_of_pos _ (fun q => !(q.1 == k)) p t hkeep]
      by_cases hp' : p.1 = k'
      · have hhit : (fun q => ((q : String × α).1 == k')) p = true := by simp [hp']
        rw [@List.find?_cons_of_pos _ (fun q => (q.1 == k')) p _ hhit,
          @List.find?_cons_of_pos _ (fun q => (q.1 == k')) p t hhit]
      · have hmiss : ¬((fun q => ((q : String × α).1 == k')) p = true) := by simp [hp']
        rw [@List.find?_cons_of_neg _ (fun q => (q.1 == k')) p _ hmiss,
          @List.find?_cons_of_neg _ (fun q => (q.1 == k')) p t hmiss]
        exact ih

theorem listGet?_listSet_ne {α : Type} (m : List (String × α)) (k k' : String)
    (v : α) (h : k' ≠ k) : listGet? (listSet m k v) k' = listGet? m k' := by
  have hk : ¬((k == k') = true) := by
    simp only [beq_iff_eq]
    exact fun hc => h hc.symm
  simp [listSet, listGet?, List.find?, hk, find?_filter_other m k k' h]

theorem degGet_degSet_self (m : DegMap) (k : String) (v : Nat) :
    degGet (degSet m k v) k = v := by
  simp [degGet, degSet, listGet?_listSet_self]

theorem degGet_degSet_ne (m : DegMap) (k k' : String) (v : Nat) (h : k' ≠ k) :
    degGet (degSet m k v) k' = degGet m k' := by
  simp [degGet, degSet, listGet?_listSet_ne m k k' v h]

theorem find?_map_keyfn_mem {β : Type} (l : List String) (f : String → β)
    (n : String) (h : n ∈ l) :
    (l.map (fun x => (x, f x))).find? (fun p => p.1 == n) = some (n, f n) := by
  induction l with
  | nil => simp at h
  | cons x t ih =>
    by_cases hx : x = n
    · subst hx
      simp [List.find?]
    · have hn : n ∈ t := by
        rcases List.mem_cons.mp h with h1 | h1
        · exact absurd h1.symm hx
        · exact h1
      have hxb : ¬((x == n) = true) := by simpa using hx
      simp only [List.map_cons, List.find?, hxb]
      simpa [hxb] using ih hn

theorem find?_map_keyfn_not_mem {β : Type} (l : List String) (f : String → β)
    (n : String) (h : n ∉ l) :
    (l.map (fun x => (x, f x))).find? (fun p => p.1 == n) = none := by
  induction l with
  | nil => simp
  | cons x t ih =>
    have hx : x ≠ n := fun hc => h (by simp [hc])
    have hxb : ¬((x == n) = true) := by simpa using hx
    simp only [List.map_cons, List.find?, hxb]
    simpa [hxb] using ih (fun hc => h (List.mem_cons_of_mem _ hc))

/-- The initial in-degree of a declared node is its predecessor count. -/
theorem degGet_initInDeg_mem (g : GraphConfig) (n : String)
    (h : n ∈ g.nodes) : degGet (initInDeg g) n = (predsList g n).length := by
  have h' : n ∈ g.nodes.dedup := List.mem_dedup.mpr h
  unfold initInDeg degGet listGet?
  rw [find?_map_keyfn_mem _ _ _ h']
  rfl

/-- The initial in-degree of an undeclared id is zero. -/
theorem degGet_initInDeg_not_mem (g : GraphConfig) (n : String)
    (h : n ∉ g.nodes) : degGet (initInDeg g) n = 0 := by
  have h' : n ∉ g.nodes.dedup := fun hc => h (List.mem_dedup.mp hc)
  unfold initInDeg degGet listGet?
  rw [find?_map_keyfn_not_mem _ _ _ h']
  rfl

/-! ### Processed-set lemmas -/

theorem mem_addProc {ps : List String} {n x : String} :
    x ∈ addProc ps n ↔ x ∈ ps ∨ x = n := by
  unfold addProc
  split
  · rename_i h
    have : n ∈ ps := by simpa [List.contains, List.elem_iff] using h
    constructor
    · exact fun hx => Or.inl hx
    · rintro (hx | rfl) <;> [exact hx; exact this]
  · simp

theorem self_mem_addProc (ps : List String) (n : String) : n ∈ addProc ps n :=
  mem_addProc.mpr (Or.inr rfl)

theorem mem_addProc_of_mem {ps : List String} {x : String} (n : String)
    (h : x ∈ ps) : x ∈ addProc ps n := mem_addProc.mpr (Or.inl h)

theorem addProc_nodup {ps : List String} (n : String) (h : ps.Nodup) :
    (addProc ps n).Nodup := by
  unfold addProc
  split
  · exact h
  · rename_i hn
    have : n ∉ ps := by simpa [List.contains, List.elem_iff] using hn
    simpa [List.nodup_append] using ⟨h, this⟩

theorem addProc_eq_append (ps : List String) (n : String) :
    ∃ l, addProc ps n = ps ++ l := by
  unfold addProc
  split
  · exact ⟨[], by simp⟩
  · exact ⟨[n], rfl⟩

/-- Fold of `addProc` over a list: an append extension whose membership is
the union. -/
theorem foldl_addProc_spec (ns : List String) :
    ∀ ps, ∃ l, ns.foldl addProc ps = ps ++ l ∧
      (∀ x, x ∈ ns.foldl addProc ps ↔ x ∈ ps ∨ x ∈ ns) ∧
      (ps.Nodup → (ns.foldl addProc ps).Nodup) := by
  induction ns with
  | nil => intro ps; exact ⟨[], by simp, by simp, fun h => h⟩
  | cons n t ih =>
    intro ps
    rcases ih (addProc ps n) with ⟨l, hl, hmem, hnd⟩
    rcases addProc_eq_append ps n with ⟨l0, hl0⟩
    refine ⟨l0 ++ l, ?_, ?_, ?_⟩
    · rw [List.foldl_cons, hl, hl0, List.append_assoc]
    · intro x
      simp only [List.foldl_cons, hmem x, mem_addProc, List.mem_cons]
      tauto
    · intro h
      simp only [List.foldl_cons]
      exact hnd (addProc_nodup n h)

/-! ### Collection and execution phase lemmas -/

theorem collectPhase_spec (env : RunEnv) :
    ∀ (F : List String) (logs : List LogEntry) (ps : List String),
      collectPhase env F logs ps =
        (F.filter (fun n => (env.callables n).isSome),
         logs ++ (F.filter (fun n => (env.callables n).isNone)).map unknownEntry,
         (F.filter (fun n => (env.callables n).isNone)).foldl addProc ps) := by
  intro F
  induction F with
  | nil => intro logs ps; simp [collectPhase]
  | cons n rest ih =>
    intro logs ps
    cases hc : env.callables n with
    | none =>
      simp only [collectPhase, hc, ih]
      simp [List.filter_cons, hc]
    | some fn =>
      simp only [collectPhase, hc, ih]
      simp [List.filter_cons, hc]

theorem execTasks_logs_append (env : RunEnv) :
    ∀ (ts : List String) (st : RunState) (logs : List LogEntry),
      ∃ new, (execTasks env ts st logs).2 = logs ++ new ∧
        ∀ e ∈ new, e.node ∈ ts ∧
          ∃ fn st0, env.callables e.node = some fn ∧
            e.output = invoke_node fn st0 := by
  intro ts
  induction ts with
  | nil => intro st logs; exact ⟨[], by simp [execTasks], by simp⟩
  | cons n rest ih =>
    intro st logs
    cases hc : env.callables n with
    | none =>
      rcases ih st logs with ⟨new, hnew, hsh⟩
      refine ⟨new, ?_, ?_⟩
      · simpa [execTasks, hc] using hnew
      · intro e he
        rcases hsh e he with ⟨hmem, fn, st0, hfn, hout⟩
        exact ⟨List.mem_cons_of_mem _ hmem, fn, st0, hfn, hout⟩
    | some fn =>
      rcases ih (updState st (invoke_node fn st)) (logs ++ [⟨n, invoke_node fn st⟩])
        with ⟨new, hnew, hsh⟩
      refine ⟨⟨n, invoke_node fn st⟩ :: new, ?_, ?_⟩
      · simp only [execTasks, hc]
        rw [hnew, List.append_assoc]
        rfl
      · intro e he
        rcases List.mem_cons.mp he with he1 | he1
        · subst he1
          exact ⟨List.mem_cons_self _ _, fn, st, hc, rfl⟩
        · rcases hsh e he1 with ⟨hmem, fn0, st0, hfn, hout⟩
          exact ⟨List.mem_cons_of_mem _ hmem, fn0, st0, hfn, hout⟩

theorem execTasks_logsNodes (env : RunEnv) :
    ∀ (ts : List String) (st : RunState) (logs : List LogEntry),
      (∀ n ∈ ts, (env.callables n).isSome) →
      ((execTasks env ts st logs).2).map (·.node) = logs.map (·.node) ++ ts := by
  intro ts
  induction ts with
  | nil => intro st logs _; simp [execTasks]
  | cons n rest ih =>
    intro st logs hall
    cases hc : env.callables n with
    | none =>
      have := hall n (List.mem_cons_self _ _)
      rw [hc] at this
      simp at this
    | some fn =>
      have hrest : ∀ m ∈ rest, (env.callables m).isSome :=
        fun m hm => hall m (List.mem_cons_of_mem _ hm)
      simp only [execTasks, hc]
      rw [ih _ _ hrest]
      simp

/-! ### Edge-processing lemmas -/

theorem procEdges_frontier (env : RunEnv) (n : String) (st : RunState) :
    ∀ (es : List Edge) (deg : DegMap) (fr : List String),
      ∃ app, (procEdges env n st es deg fr).2 = fr ++ app ∧
        ∀ x ∈ app, ∃ e ∈ es, x = e.tgt := by
  intro es
  induction es with
  | nil => intro deg fr; exact ⟨[], by simp [procEdges], by simp⟩
  | cons e rest ih =>
    intro deg fr
    by_cases hf : followEdge env n st e = true
    · by_cases hd : ((degGet deg e.tgt - 1 == 0) = true)
      · rcases ih (degSet deg e.tgt (degGet deg e.tgt - 1)) (fr ++ [e.tgt])
          with ⟨app, happ, hsh⟩
        refine ⟨e.tgt :: app, ?_, ?_⟩
        · simp only [procEdges, hf, hd, if_true]
          rw [happ, List.append_assoc]
          rfl
        · intro x hx
          rcases List.mem_cons.mp hx with hx1 | hx1
          · exact ⟨e, List.mem_cons_self _ _, hx1⟩
          · rcases hsh x hx1 with ⟨e0, he0, hx0⟩
            exact ⟨e0, List.mem_cons_of_mem _ he0, hx0⟩
      · rcases ih (degSet deg e.tgt (degGet deg e.tgt - 1)) fr with ⟨app, happ, hsh⟩
        refine ⟨app, ?_, ?_⟩
        · simp only [procEdges, hf, if_true]
          rw [if_neg hd]
          exact happ
        · intro x hx
          rcases hsh x hx with ⟨e0, he0, hx0⟩
          exact ⟨e0, List.mem_cons_of_mem _ he0, hx0⟩
    · rcases ih deg fr with ⟨app, happ, hsh⟩
      refine ⟨app, ?_, ?_⟩
      · simpa [procEdges, hf] using happ
      · intro x hx
        rcases hsh x hx with ⟨e0, he0, hx0⟩
        exact ⟨e0, List.mem_cons_of_mem _ he0, hx0⟩

/-- Frontier membership is monotone through `procEdges`. -/
theorem procEdges_fr_mono (env : RunEnv) (n : String) (st : RunState)
    (es : List Edge) (deg : DegMap) (fr : List String) {x : String}
    (h : x ∈ fr) : x ∈ (procEdges env n st es deg fr).2 := by
  rcases procEdges_frontier env n st es deg fr with ⟨app, happ, _⟩
  rw [happ]
  exact List.mem_append_left _ h

/-- A key is untouched by `procEdges` when every edge to it is unfollowed. -/
theorem procEdges_untouched (env : RunEnv) (n : String) (st : RunState)
    (X : String) :
    ∀ (es : List Edge) (deg : DegMap) (fr : List String),
      (∀ e ∈ es, e.tgt = X → followEdge env n st e = false) →
      degGet (procEdges env n st es deg fr).1 X = degGet deg X ∧
        (X ∈ (procEdges env n st es deg fr).2 ↔ X ∈ fr) := by
  intro es
  induction es with
  | nil => intro deg fr _; simp [procEdges]
  | cons e rest ih =>
    intro deg fr hskip
    have hrest : ∀ e0 ∈ rest, e0.tgt = X → followEdge env n st e0 = false :=
      fun e0 he0 => hskip e0 (List.mem_cons_of_mem _ he0)
    by_cases hf : followEdge env n st e = true
    · have hex : e.tgt ≠ X := by
        intro hc
        rw [hskip e (List.mem_cons_self _ _) hc] at hf
        exact Bool.false_ne_true hf
      have hd := ih (degSet deg e.tgt (degGet deg e.tgt - 1))
        (if (degGet deg e.tgt - 1 == 0) = true then fr ++ [e.tgt] else fr) hrest
      constructor
      · rw [show (procEdges env n st (e :: rest) deg fr) =
          (procEdges env n st rest (degSet deg e.tgt (degGet deg e.tgt - 1))
            (if (degGet deg e.tgt - 1 == 0) = true then fr ++ [e.tgt] else fr)) by
            simp [procEdges, hf]]
        rw [hd.1, degGet_degSet_ne _ _ _ _ (Ne.symm hex)]
      · rw [show (procEdges env n st (e :: rest) deg fr) =
          (procEdges env n st rest (degSet deg e.tgt (degGet deg e.tgt - 1))
            (if (degGet deg e.tgt - 1 == 0) = true then fr ++ [e.tgt] else fr)) by
            simp [procEdges, hf]]
        rw [hd.2]
        by_cases hd0 : ((degGet deg e.tgt - 1 == 0) = true)
        · simp [hd0, Ne.symm hex]
        · simp [hd0]
    · have hd := ih deg fr hrest
      constructor
      · rw [show (procEdges env n st (e :: rest) deg fr) =
          (procEdges env n st rest deg fr) by simp [procEdges, hf]]
        exact hd.1
      · rw [show (procEdges env n st (e :: rest) deg fr) =
          (procEdges env n st rest deg fr) by simp [procEdges, hf]]
        exact hd.2

/-! ### Predecessor-count lemmas -/

theorem mem_predsList {g : GraphConfig} {J n : String} :
    n ∈ predsList g J ↔ ∃ e ∈ g.edges, e.tgt = J ∧ e.frm = n ∧ n ≠ "START" := by
  unfold predsList
  rw [List.mem_dedup]
  constructor
  · intro h
    rcases List.mem_map.mp h with ⟨e, he, hfrm⟩
    rcases List.mem_filter.mp he with ⟨he1, he2⟩
    simp only [Bool.and_eq_true, beq_iff_eq, bne_iff_ne] at he2
    exact ⟨e, he1, he2.1, hfrm, hfrm ▸ he2.2⟩
  · rintro ⟨e, he, htgt, hfrm, hS⟩
    refine List.mem_map.mpr ⟨e, List.mem_filter.mpr ⟨he, ?_⟩, hfrm⟩
    simp only [Bool.and_eq_true, beq_iff_eq, bne_iff_ne]
    exact ⟨htgt, hfrm ▸ hS⟩

theorem mem_seedFrontier_of_edge {g : GraphConfig} {e : Edge}
    (he : e ∈ g.edges) (hfrm : e.frm = "START") : e.tgt ∈ seedFrontier g := by
  unfold seedFrontier
  exact List.mem_map.mpr ⟨e, List.mem_filter.mpr ⟨he, by simp [hfrm]⟩, rfl⟩

/-- An edge into a non-seeded node comes from a predecessor. -/
theorem pred_of_edge {g : GraphConfig} {J n : String} {e : Edge}
    (he : e ∈ g.edges) (hfrm : e.frm = n) (htgt : e.tgt = J)
    (hJs : J ∉ seedFrontier g) : n ∈ predsList g J := by
  refine mem_predsList.mpr ⟨e, he, htgt, hfrm, ?_⟩
  intro hS
  exact hJs (htgt ▸ mem_seedFrontier_of_edge he (hfrm ▸ hS ▸ rfl))

theorem addProc_of_mem {ps : List String} {n : String} (h : n ∈ ps) :
    addProc ps n = ps := by
  unfold addProc
  rw [if_pos]
  simpa [List.contains, List.elem_iff] using h

theorem remCount_addProc_not_pred {g : GraphConfig} {J : String}
    {ps : List String} {n : String} (h : n ∉ predsList g J) :
    remCount g J (addProc ps n) = remCount g J ps := by
  unfold remCount
  congr 1
  apply Finset.filter_congr
  intro x hx
  have hx' : x ∈ predsList g J := by
    simpa [predsOf, List.mem_toFinset] using hx
  have hxn : x ≠ n := fun hc => h (hc ▸ hx')
  simp [mem_addProc, hxn]

theorem remCount_addProc_pred {g : GraphConfig} {J : String}
    {ps : List String} {n : String} (hp : n ∈ predsList g J) (hn : n ∉ ps) :
    remCount g J ps = remCount g J (addProc ps n) + 1 := by
  unfold remCount
  have hmem : n ∈ (predsOf g J).filter (fun x => x ∉ ps) := by
    simp [Finset.mem_filter, predsOf, List.mem_toFinset, hp, hn]
  have herase : (predsOf g J).filter (fun x => x ∉ addProc ps n) =
      ((predsOf g J).filter (fun x => x ∉ ps)).erase n := by
    ext x
    simp only [Finset.mem_filter, Finset.mem_erase, mem_addProc]
    tauto
  rw [herase, Finset.card_erase_of_mem hmem]
  have hpos : 0 < ((predsOf g J).filter (fun x => x ∉ ps)).card :=
    Finset.card_pos.mpr ⟨n, hmem⟩
  omega

theorem remCount_zero_subset {g : GraphConfig} {J : String} {ps : List String}
    (h : remCount g J ps = 0) : ∀ X ∈ predsList g J, X ∈ ps := by
  intro X hX
  by_contra hc
  have hmem : X ∈ (predsOf g J).filter (fun x => x ∉ ps) := by
    simp [Finset.mem_filter, predsOf, List.mem_toFinset, hX, hc]
  unfold remCount at h
  rw [Finset.card_eq_zero] at h
  rw [h] at hmem
  simp at hmem

theorem remCount_one_subset {g : GraphConfig} {J : String} {ps : List String}
    {n : String} (h : remCount g J ps = 1) (hn : n ∈ predsList g J)
    (hnp : n ∉ ps) : ∀ X ∈ predsList g J, X ∈ ps ∨ X = n := by
  intro X hX
  by_cases hc : X ∈ ps
  · exact Or.inl hc
  · right
    unfold remCount at h
    rcases Finset.card_eq_one.mp h with ⟨a, ha⟩
    have h1 : X ∈ (predsOf g J).filter (fun x => x ∉ ps) := by
      simp [Finset.mem_filter, predsOf, List.mem_toFinset, hX, hc]
    have h2 : n ∈ (predsOf g J).filter (fun x => x ∉ ps) := by
      simp [Finset.mem_filter, predsOf, List.mem_toFinset, hn, hnp]
    rw [ha] at h1 h2
    simp only [Finset.mem_singleton] at h1 h2
    rw [h1, h2]

/-! ### Debt lemmas -/

theorem debt_cons (g : GraphConfig) (J : String) (ps : List String)
    (n : String) (rest : List String) :
    debt g J ps (n :: rest) =
      debt g J ps rest + (if n ∈ predsList g J ∧ n ∈ ps then 1 else 0) := by
  unfold debt
  by_cases h : n ∈ predsList g J ∧ n ∈ ps
  · have hcond : (fun x => decide (x ∈ predsList g J) && ps.contains x) n = true := by
      simp [h.1, List.contains, List.elem_iff, h.2]
    rw [@List.filter_cons_of_pos _
      (fun x => decide (x ∈ predsList g J) && ps.contains x) n rest hcond,
      if_pos h]
    simp
  · have hcond : ¬((fun x => decide (x ∈ predsList g J) && ps.contains x) n = true) := by
      simp only [Bool.and_eq_true, decide_eq_true_eq]
      intro hc
      exact h ⟨hc.1, by simpa [List.contains, List.elem_iff] using hc.2⟩
    rw [@List.filter_cons_of_neg _
      (fun x => decide (x ∈ predsList g J) && ps.contains x) n rest hcond,
      if_neg h]
    simp

theorem debt_addProc_head (g : GraphConfig) (J : String) {ps : List String}
    {n : String} {rest : List String} (h : n ∉ rest) :
    debt g J (addProc ps n) rest = debt g J ps rest := by
  unfold debt
  congr 1
  apply List.filter_congr
  intro x hx
  have hxn : x ≠ n := fun hc => h (hc ▸ hx)
  have : (addProc ps n).contains x = ps.contains x := by
    by_cases hxp : x ∈ ps
    · simp [List.contains, List.elem_iff, hxp, mem_addProc_of_mem n hxp]
    · have : x ∉ addProc ps n := by
        rw [mem_addProc]
        rintro (hc | hc)
        · exact hxp hc
        · exact hxn hc
      simp [List.contains, List.elem_iff, hxp, this]
  rw [this]

theorem debt_nil (g : GraphConfig) (J : String) (ps : List String) :
    debt g J ps [] = 0 := rfl

theorem debt_zero_of_disjoint {g : GraphConfig} {J : String}
    {ps F : List String} (h : ∀ x ∈ F, x ∉ ps) : debt g J ps F = 0 := by
  unfold debt
  rw [List.length_eq_zero]
  rw [List.filter_eq_nil_iff]
  intro x hx
  simp only [Bool.and_eq_true, decide_eq_true_eq, not_and]
  intro _
  simpa [List.contains, List.elem_iff] using h x hx

theorem debt_addProc_not_pred {g : GraphConfig} {J : String}
    {ps : List String} {u : String} (h : u ∉ predsList g J)
    (F : List String) : debt g J (addProc ps u) F = debt g J ps F := by
  unfold debt
  congr 1
  apply List.filter_congr
  intro x hx
  by_cases hxu : x = u
  · subst hxu
    have : decide (x ∈ predsList g J) = false := by
      simpa using h
    simp [this]
  · have hcont : (addProc ps u).contains x = ps.contains x := by
      by_cases hxp : x ∈ ps
      · simp [List.contains, List.elem_iff, hxp, mem_addProc_of_mem u hxp]
      · have hni : x ∉ addProc ps u := by
          rw [mem_addProc]
          rintro (hc | hc)
          · exact hxp hc
          · exact hxu hc
        simp [List.contains, List.elem_iff, hxp, hni]
    rw [hcont]

theorem debt_addProc_pred_once {g : GraphConfig} {J : String}
    {ps : List String} {u : String} (hp : u ∈ predsList g J) (hups : u ∉ ps) :
    ∀ {F : List String}, F.Nodup → u ∈ F →
      debt g J (addProc ps u) F = debt g J ps F + 1 := by
  intro F
  induction F with
  | nil => intro _ h; simp at h
  | cons y t ih =>
    intro hnd hmem
    have hnd' := List.nodup_cons.mp hnd
    by_cases hyu : y = u
    · subst hyu
      have hcondT : (fun x => decide (x ∈ predsList g J) &&
          (addProc ps y).contains x) y = true := by
        simp [hp, List.contains, List.elem_iff, self_mem_addProc]
      have hcondF : ¬((fun x => decide (x ∈ predsList g J) &&
          ps.contains x) y = true) := by
        simp only [Bool.and_eq_true, decide_eq_true_eq, not_and]
        intro _
        simpa [List.contains, List.elem_iff] using hups
      unfold debt
      rw [@List.filter_cons_of_pos _
        (fun x => decide (x ∈ predsList g J) && (addProc ps y).contains x)
        y t hcondT]
      rw [@List.filter_cons_of_neg _
        (fun x => decide (x ∈ predsList g J) && ps.contains x) y t hcondF]
      rw [List.length_cons]
      have htail : (t.filter (fun x => decide (x ∈ predsList g J) &&
          (addProc ps y).contains x)).length =
          (t.filter (fun x => decide (x ∈ predsList g J) &&
            ps.contains x)).length := by
        have := @debt_addProc_head g J ps y t hnd'.1
        unfold debt at this
        exact this
      rw [htail]
    · have hut : u ∈ t := by
        rcases List.mem_cons.mp hmem with h1 | h1
        · exact absurd h1.symm hyu
        · exact h1
      have hcont : (addProc ps u).contains y = ps.contains y := by
        by_cases hyp : y ∈ ps
        · simp [List.contains, List.elem_iff, hyp, mem_addProc_of_mem u hyp]
        · have hni : y ∉ addProc ps u := by
            rw [mem_addProc]
            rintro (hc | hc)
            · exact hyp hc
            · exact hyu hc
          simp [List.contains, List.elem_iff, hyp, hni]
      have hih := ih hnd'.2 hut
      have hsame : (fun x => decide (x ∈ predsList g J) &&
          (addProc ps u).contains x) y =
          (fun x => decide (x ∈ predsList g J) && ps.contains x) y := by
        simp only []
        rw [hcont]
      unfold debt at hih ⊢
      by_cases hcy : (fun x => decide (x ∈ predsList g J) &&
          ps.contains x) y = true
      · have hcy2 : (fun x => decide (x ∈ predsList g J) &&
            (addProc ps u).contains x) y = true := by
          rw [hsame]
          exact hcy
        rw [@List.filter_cons_of_pos _
          (fun x => decide (x ∈ predsList g J) && (addProc ps u).contains x)
          y t hcy2]
        rw [@List.filter_cons_of_pos _
          (fun x => decide (x ∈ predsList g J) && ps.contains x) y t hcy]
        simp only [List.length_cons]
        omega
      · have hcy2 : ¬((fun x => decide (x ∈ predsList g J) &&
            (addProc ps u).contains x) y = true) := by
          rw [hsame]
          exact hcy
        rw [@List.filter_cons_of_neg _
          (fun x => decide (x ∈ predsList g J) && (addProc ps u).contains x)
          y t hcy2]
        rw [@List.filter_cons_of_neg _
          (fun x => decide (x ∈ predsList g J) && ps.contains x) y t hcy]
        exact hih

/-- Adding the skipped unresolvable frontier nodes to the processed set
before the successor phase preserves the combined counting bound. -/
theorem collect_fold_inv (g : GraphConfig) (J : String) :
    ∀ (us ps F : List String), us.Nodup → (∀ x ∈ us, x ∉ ps) →
      (∀ x ∈ us, x ∈ F) → F.Nodup →
      remCount g J (us.foldl addProc ps) + debt g J (us.foldl addProc ps) F ≤
        remCount g J ps + debt g J ps F := by
  intro us
  induction us with
  | nil => intro ps F _ _ _ _; simp
  | cons u t ih =>
    intro ps F hnd hdisj hsub hFnd
    have hnd' := List.nodup_cons.mp hnd
    have hups : u ∉ ps := hdisj u (List.mem_cons_self _ _)
    have hdisj2 : ∀ x ∈ t, x ∉ addProc ps u := by
      intro x hx
      rw [mem_addProc]
      rintro (hc | hc)
      · exact hdisj x (List.mem_cons_of_mem _ hx) hc
      · exact hnd'.1 (hc ▸ hx)
    have hsub2 : ∀ x ∈ t, x ∈ F := fun x hx => hsub x (List.mem_cons_of_mem _ hx)
    have hrec := ih (addProc ps u) F hnd'.2 hdisj2 hsub2 hFnd
    simp only [List.foldl_cons]
    by_cases hpred : u ∈ predsList g J
    · have h1 : remCount g J ps = remCount g J (addProc ps u) + 1 :=
        remCount_addProc_pred hpred hups
      have h2 : debt g J (addProc ps u) F = debt g J ps F + 1 :=
        debt_addProc_pred_once hpred hups hFnd (hsub u (List.mem_cons_self _ _))
      omega
    · have h1 : remCount g J (addProc ps u) = remCount g J ps :=
        remCount_addProc_not_pred hpred
      have h2 : debt g J (addProc ps u) F = debt g J ps F :=
        debt_addProc_not_pred hpred F
      omega

/-! ### Edge-multiplicity lemmas -/

theorem length_le_one_of_nodup_const {α : Type} {l : List α} {c : α}
    (hnd : l.Nodup) (hall : ∀ x ∈ l, x = c) : l.length ≤ 1 := by
  rcases l with _ | ⟨x, _ | ⟨y, t⟩⟩
  · simp
  · simp
  · exfalso
    have hx : x = c := hall x (by simp)
    have hy : y = c := hall y (by simp)
    have hne : x ≠ y := by
      rw [List.nodup_cons] at hnd
      exact fun hc => hnd.1 (hc ▸ List.mem_cons_self _ _)
    exact hne (hx.trans hy.symm)

theorem edgesFrom_filter_tgt_le_one {g : GraphConfig} (hnd : g.edges.Nodup)
    (n J : String) :
    ((edgesFrom g n).filter (fun e => e.tgt == J)).length ≤ 1 := by
  apply @length_le_one_of_nodup_const _ _ (Edge.mk n J)
  · exact (List.filter_sublist _).nodup ((List.filter_sublist _).nodup hnd)
  · intro e he
    rcases List.mem_filter.mp he with ⟨he1, he2⟩
    rcases List.mem_filter.mp he1 with ⟨_, he3⟩
    have h1 : e.tgt = J := by simpa using he2
    have h2 : e.frm = n := by simpa using he3
    cases e
    simp_all

/-- Through one node handling, the in-degree of `J` drops by at most one when
at most one edge targets `J`, and `J` is appended only when its stored
in-degree was at most one and a followed edge targets it. -/
theorem procEdges_key_one (env : RunEnv) (n : String) (st : RunState)
    (J : String) :
    ∀ (es : List Edge) (deg : DegMap) (fr : List String),
      (es.filter (fun e => e.tgt == J)).length ≤ 1 →
      degGet deg J - 1 ≤ degGet (procEdges env n st es deg fr).1 J ∧
        (J ∈ (procEdges env n st es deg fr).2 → J ∈ fr ∨
          ((∃ e ∈ es, e.tgt = J ∧ followEdge env n st e = true) ∧
            degGet deg J ≤ 1)) := by
  intro es
  induction es with
  | nil =>
    intro deg fr _
    constructor
    · simp only [procEdges]
      omega
    · intro h
      simp only [procEdges] at h
      exact Or.inl h
  | cons e rest ih =>
    intro deg fr hle
    by_cases htgt : e.tgt = J
    · have hhead : ((fun x => (x : Edge).tgt == J) e = true) := by simp [htgt]
      have hrest0 : ∀ e0 ∈ rest, e0.tgt ≠ J := by
        intro e0 he0 hc
        rw [@List.filter_cons_of_pos _ (fun x => (x : Edge).tgt == J) e rest hhead]
          at hle
        have hmem : e0 ∈ rest.filter (fun x => (x : Edge).tgt == J) :=
          List.mem_filter.mpr ⟨he0, by simp [hc]⟩
        have hpos : 0 < (rest.filter (fun x => (x : Edge).tgt == J)).length :=
          List.length_pos.mpr (fun hnil => by rw [hnil] at hmem; simp at hmem)
        simp only [List.length_cons] at hle
        omega
      have huntouched : ∀ e0 ∈ rest, e0.tgt = J → followEdge env n st e0 = false :=
        fun e0 he0 hc => absurd hc (hrest0 e0 he0)
      by_cases hf : followEdge env n st e = true
      · have hstep : procEdges env n st (e :: rest) deg fr =
            procEdges env n st rest (degSet deg e.tgt (degGet deg e.tgt - 1))
              (if (degGet deg e.tgt - 1 == 0) = true then fr ++ [e.tgt] else fr) := by
          simp [procEdges, hf]
        rcases procEdges_untouched env n st J rest
          (degSet deg e.tgt (degGet deg e.tgt - 1))
          (if (degGet deg e.tgt - 1 == 0) = true then fr ++ [e.tgt] else fr)
          huntouched with ⟨hdeg, hfr⟩
        constructor
        · rw [hstep, hdeg, htgt, degGet_degSet_self]
        · intro hJ
          rw [hstep] at hJ
          rw [hfr] at hJ
          by_cases hd0 : ((degGet deg e.tgt - 1 == 0) = true)
          · right
            refine ⟨⟨e, List.mem_cons_self _ _, htgt, hf⟩, ?_⟩
            have : degGet deg e.tgt - 1 = 0 := by simpa using hd0
            rw [htgt] at this
            omega
          · rw [if_neg hd0] at hJ
            exact Or.inl hJ
      · have hstep : procEdges env n st (e :: rest) deg fr =
            procEdges env n st rest deg fr := by
          simp [procEdges, hf]
        rcases procEdges_untouched env n st J rest deg fr huntouched
          with ⟨hdeg, hfr⟩
        constructor
        · rw [hstep, hdeg]
          omega
        · intro hJ
          rw [hstep, hfr] at hJ
          exact Or.inl hJ
    · have hheadne : ¬((fun x => (x : Edge).tgt == J) e = true) := by simp [htgt]
      have hle' : (rest.filter (fun x => (x : Edge).tgt == J)).length ≤ 1 := by
        rw [@List.filter_cons_of_neg _ (fun x => (x : Edge).tgt == J) e rest hheadne]
          at hle
        exact hle
      by_cases hf : followEdge env n st e = true
      · have hstep : procEdges env n st (e :: rest) deg fr =
            procEdges env n st rest (degSet deg e.tgt (degGet deg e.tgt - 1))
              (if (degGet deg e.tgt - 1 == 0) = true then fr ++ [e.tgt] else fr) := by
          simp [procEdges, hf]
        have hdeg1 : degGet (degSet deg e.tgt (degGet deg e.tgt - 1)) J =
            degGet deg J := degGet_degSet_ne _ _ _ _ (fun hc => htgt hc.symm)
        rcases ih (degSet deg e.tgt (degGet deg e.tgt - 1))
          (if (degGet deg e.tgt - 1 == 0) = true then fr ++ [e.tgt] else fr) hle'
          with ⟨hd, hm⟩
        constructor
        · rw [hstep]
          rw [hdeg1] at hd
          exact hd
        · intro hJ
          rw [hstep] at hJ
          rcases hm hJ with hin | ⟨⟨e0, he0, hQ, hF⟩, hdle⟩
          · by_cases hd0 : ((degGet deg e.tgt - 1 == 0) = true)
            · rw [if_pos hd0] at hin
              rcases List.mem_append.mp hin with hin1 | hin1
              · exact Or.inl hin1
              · simp only [List.mem_singleton] at hin1
                exact absurd hin1.symm htgt
            · rw [if_neg hd0] at hin
              exact Or.inl hin
          · right
            rw [hdeg1] at hdle
            exact ⟨⟨e0, List.mem_cons_of_mem _ he0, hQ, hF⟩, hdle⟩
      · have hstep : procEdges env n st (e :: rest) deg fr =
            procEdges env n st rest deg fr := by
          simp [procEdges, hf]
        rcases ih deg fr hle' with ⟨hd, hm⟩
        constructor
        · rw [hstep]; exact hd
        · intro hJ
          rw [hstep] at hJ
          rcases hm hJ with hin | ⟨⟨e0, he0, hQ, hF⟩, hdle⟩
          · exact Or.inl hin
          · exact Or.inr ⟨⟨e0, List.mem_cons_of_mem _ he0, hQ, hF⟩, hdle⟩

/-- When the in-degree of `Q` is one and some followed edge targets it, the
edge handling schedules `Q`. -/
theorem procEdges_fires (env : RunEnv) (n : String) (st : RunState)
    (Q : String) :
    ∀ (es : List Edge) (deg : DegMap) (fr : List String),
      (∃ e ∈ es, e.tgt = Q ∧ followEdge env n st e = true) →
      degGet deg Q = 1 → Q ∈ (procEdges env n st es deg fr).2 := by
  intro es
  induction es with
  | nil =>
    rintro deg fr ⟨e, he, _⟩ _
    simp at he
  | cons e rest ih =>
    rintro deg fr ⟨e0, he0, hQ, hF⟩ hdeg
    by_cases hhead : e.tgt = Q ∧ followEdge env n st e = true
    · have hd : (degGet deg e.tgt - 1) = 0 := by rw [hhead.1, hdeg]
      have hd0 : ((degGet deg e.tgt - 1 == 0) = true) := by simp [hd]
      have hstep : procEdges env n st (e :: rest) deg fr =
          procEdges env n st rest (degSet deg e.tgt (degGet deg e.tgt - 1))
            (fr ++ [e.tgt]) := by
        simp [procEdges, hhead.2, hd0]
      rw [hstep]
      exact procEdges_fr_mono env n st _ _ _
        (by rw [hhead.1]; exact List.mem_append_right _ (by simp))
    · have hw : ∃ e1 ∈ rest, e1.tgt = Q ∧ followEdge env n st e1 = true := by
        rcases List.mem_cons.mp he0 with h1 | h1
        · exact absurd ⟨h1 ▸ hQ, h1 ▸ hF⟩ hhead
        · exact ⟨e0, h1, hQ, hF⟩
      by_cases hf : followEdge env n st e = true
      · have htgtQ : e.tgt ≠ Q := fun hc => hhead ⟨hc, hf⟩
        have hstep : procEdges env n st (e :: rest) deg fr =
            procEdges env n st rest (degSet deg e.tgt (degGet deg e.tgt - 1))
              (if (degGet deg e.tgt - 1 == 0) = true then fr ++ [e.tgt] else fr) := by
          simp [procEdges, hf]
        rw [hstep]
        apply ih _ _ hw
        rw [degGet_degSet_ne _ _ _ _ (fun hc => htgtQ hc.symm)]
        exact hdeg
      · have hstep : procEdges env n st (e :: rest) deg fr =
            procEdges env n st rest deg fr := by
          simp [procEdges, hf]
        rw [hstep]
        exact ih deg fr hw hdeg

/-- Count version of the untouched lemma: a key without followed edges is
neither decremented nor appended. -/
theorem procEdges_untouched_count (env : RunEnv) (n : String) (st : RunState)
    (X : String) :
    ∀ (es : List Edge) (deg : DegMap) (fr : List String),
      (∀ e ∈ es, e.tgt = X → followEdge env n st e = false) →
      degGet (procEdges env n st es deg fr).1 X = degGet deg X ∧
        ((procEdges env n st es deg fr).2.count X = fr.count X) := by
  intro es
  induction es with
  | nil => intro deg fr _; simp [procEdges]
  | cons e rest ih =>
    intro deg fr hskip
    have hrest : ∀ e0 ∈ rest, e0.tgt = X → followEdge env n st e0 = false :=
      fun e0 he0 => hskip e0 (List.mem_cons_of_mem _ he0)
    by_cases hf : followEdge env n st e = true
    · have hex : e.tgt ≠ X := by
        intro hc
        rw [hskip e (List.mem_cons_self _ _) hc] at hf
        exact Bool.false_ne_true hf
      have hstep : procEdges env n st (e :: rest) deg fr =
          procEdges env n st rest (degSet deg e.tgt (degGet deg e.tgt - 1))
            (if (degGet deg e.tgt - 1 == 0) = true then fr ++ [e.tgt] else fr) := by
        simp [procEdges, hf]
      rcases ih (degSet deg e.tgt (degGet deg e.tgt - 1))
        (if (degGet deg e.tgt - 1 == 0) = true then fr ++ [e.tgt] else fr) hrest
        with ⟨hdeg, hcnt⟩
      constructor
      · rw [hstep, hdeg, degGet_degSet_ne _ _ _ _ (Ne.symm hex)]
      · rw [hstep, hcnt]
        by_cases hd0 : ((degGet deg e.tgt - 1 == 0) = true)
        · rw [if_pos hd0, List.count_append]
          simp [List.count_singleton', Ne.symm hex]
        · rw [if_neg hd0]
    · have hstep : procEdges env n st (e :: rest) deg fr =
          procEdges env n st rest deg fr := by
        simp [procEdges, hf]
      rcases ih deg fr hrest with ⟨hdeg, hcnt⟩
      exact ⟨by rw [hstep, hdeg], by rw [hstep, hcnt]⟩

/-- Count disjunction for one node handling: either `J` is not appended, or
it is appended exactly once and its stored in-degree is then zero. -/
theorem procEdges_count (env : RunEnv) (n : String) (st : RunState)
    (J : String) :
    ∀ (es : List Edge) (deg : DegMap) (fr : List String),
      (es.filter (fun e => e.tgt == J)).length ≤ 1 →
      ((procEdges env n st es deg fr).2.count J = fr.count J ∨
        ((procEdges env n st es deg fr).2.count J = fr.count J + 1 ∧
          degGet (procEdges env n st es deg fr).1 J = 0)) := by
  intro es
  induction es with
  | nil => intro deg fr _; exact Or.inl (by simp [procEdges])
  | cons e rest ih =>
    intro deg fr hle
    by_cases htgt : e.tgt = J
    · have hhead : ((fun x => (x : Edge).tgt == J) e = true) := by simp [htgt]
      have hrest0 : ∀ e0 ∈ rest, e0.tgt ≠ J := by
        intro e0 he0 hc
        rw [@List.filter_cons_of_pos _ (fun x => (x : Edge).tgt == J) e rest hhead]
          at hle
        have hmem : e0 ∈ rest.filter (fun x => (x : Edge).tgt == J) :=
          List.mem_filter.mpr ⟨he0, by simp [hc]⟩
        have hpos : 0 < (rest.filter (fun x => (x : Edge).tgt == J)).length :=
          List.length_pos.mpr (fun hnil => by rw [hnil] at hmem; simp at hmem)
        simp only [List.length_cons] at hle
        omega
      have huntouched : ∀ e0 ∈ rest, e0.tgt = J → followEdge env n st e0 = false :=
        fun e0 he0 hc => absurd hc (hrest0 e0 he0)
      by_cases hf : followEdge env n st e = true
      · have hstep : procEdges env n st (e :: rest) deg fr =
            procEdges env n st rest (degSet deg e.tgt (degGet deg e.tgt - 1))
              (if (degGet deg e.tgt - 1 == 0) = true then fr ++ [e.tgt] else fr) := by
          simp [procEdges, hf]
        rcases procEdges_untouched_count env n st J rest
          (degSet deg e.tgt (degGet deg e.tgt - 1))
          (if (degGet deg e.tgt - 1 == 0) = true then fr ++ [e.tgt] else fr)
          huntouched with ⟨hdeg, hcnt⟩
        by_cases hd0 : ((degGet deg e.tgt - 1 == 0) = true)
        · right
          constructor
          · rw [hstep, hcnt, if_pos hd0, List.count_append, htgt]
            simp [List.count_singleton']
          · rw [hstep, hdeg, htgt, degGet_degSet_self]
            rw [htgt] at hd0
            simpa using hd0
        · left
          rw [hstep, hcnt, if_neg hd0]
      · have hstep : procEdges env n st (e :: rest) deg fr =
            procEdges env n st rest deg fr := by
          simp [procEdges, hf]
        rcases procEdges_untouched_count env n st J rest deg fr huntouched
          with ⟨_, hcnt⟩
        exact Or.inl (by rw [hstep, hcnt])
    · have hheadne : ¬((fun x => (x : Edge).tgt == J) e = true) := by simp [htgt]
      have hle2 : (rest.filter (fun x => (x : Edge).tgt == J)).length ≤ 1 := by
        rw [@List.filter_cons_of_neg _ (fun x => (x : Edge).tgt == J) e rest hheadne]
          at hle
        exact hle
      by_cases hf : followEdge env n st e = true
      · have hstep : procEdges env n st (e :: rest) deg fr =
            procEdges env n st rest (degSet deg e.tgt (degGet deg e.tgt - 1))
              (if (degGet deg e.tgt - 1 == 0) = true then fr ++ [e.tgt] else fr) := by
          simp [procEdges, hf]
        have hcnt1 : (if (degGet deg e.tgt - 1 == 0) = true then fr ++ [e.tgt]
            else fr).count J = fr.count J := by
          by_cases hd0 : ((degGet deg e.tgt - 1 == 0) = true)
          · rw [if_pos hd0, List.count_append]
            simp [List.count_singleton', htgt]
          · rw [if_neg hd0]
        rcases ih (degSet deg e.tgt (degGet deg e.tgt - 1))
          (if (degGet deg e.tgt - 1 == 0) = true then fr ++ [e.tgt] else fr) hle2
          with hc1 | ⟨hc1, hc2⟩
        · exact Or.inl (by rw [hstep, hc1, hcnt1])
        · exact Or.inr ⟨by rw [hstep, hc1, hcnt1], by rw [hstep]; exact hc2⟩
      · have hstep : procEdges env n st (e :: rest) deg fr =
            procEdges env n st rest deg fr := by
          simp [procEdges, hf]
        rcases ih deg fr hle2 with hc1 | ⟨hc1, hc2⟩
        · exact Or.inl (by rw [hstep, hc1])
        · exact Or.inr ⟨by rw [hstep, hc1], by rw [hstep]; exact hc2⟩

/-! ### Successor-phase lemmas -/

theorem mem_edgesFrom {g : GraphConfig} {n : String} {e : Edge} :
    e ∈ edgesFrom g n ↔ e ∈ g.edges ∧ e.frm = n := by
  unfold edgesFrom
  rw [List.mem_filter]
  simp

theorem succPhase_processed (env : RunEnv) (st : RunState) :
    ∀ (ns ps : List String) (deg : DegMap) (fr : List String),
      (succPhase env st ns ps deg fr).1 = ns.foldl addProc ps := by
  intro ns
  induction ns with
  | nil => intro ps deg fr; rfl
  | cons n rest ih =>
    intro ps deg fr
    simp only [succPhase, List.foldl_cons]
    exact ih _ _ _

theorem succPhase_frontier (env : RunEnv) (st : RunState) :
    ∀ (ns ps : List String) (deg : DegMap) (fr : List String),
      ∃ app, (succPhase env st ns ps deg fr).2.2 = fr ++ app ∧
        ∀ x ∈ app, ∃ e ∈ env.cfg.edges, x = e.tgt := by
  intro ns
  induction ns with
  | nil => intro ps deg fr; exact ⟨[], by simp [succPhase], by simp⟩
  | cons n rest ih =>
    intro ps deg fr
    rcases procEdges_frontier env n st (edgesFrom env.cfg n) deg fr
      with ⟨app1, happ1, hsh1⟩
    rcases ih (addProc ps n)
      (procEdges env n st (edgesFrom env.cfg n) deg fr).1
      (procEdges env n st (edgesFrom env.cfg n) deg fr).2 with ⟨app2, happ2, hsh2⟩
    refine ⟨app1 ++ app2, ?_, ?_⟩
    · simp only [succPhase]
      rw [happ2, happ1, List.append_assoc]
    · intro x hx
      rcases List.mem_append.mp hx with hx1 | hx1
      · rcases hsh1 x hx1 with ⟨e, he, hxe⟩
        exact ⟨e, (mem_edgesFrom.mp he).1, hxe⟩
      · exact hsh2 x hx1

theorem succPhase_fr_mono (env : RunEnv) (st : RunState) (ns ps : List String)
    (deg : DegMap) (fr : List String) {x : String} (h : x ∈ fr) :
    x ∈ (succPhase env st ns ps deg fr).2.2 := by
  rcases succPhase_frontier env st ns ps deg fr with ⟨app, happ, _⟩
  rw [happ]
  exact List.mem_append_left _ h

theorem succPhase_untouched (env : RunEnv) (st : RunState) (X : String) :
    ∀ (ns ps : List String) (deg : DegMap) (fr : List String),
      (∀ n ∈ ns, ∀ e ∈ edgesFrom env.cfg n, e.tgt = X →
        followEdge env n st e = false) →
      degGet (succPhase env st ns ps deg fr).2.1 X = degGet deg X ∧
        (X ∈ (succPhase env st ns ps deg fr).2.2 ↔ X ∈ fr) := by
  intro ns
  induction ns with
  | nil => intro ps deg fr _; simp [succPhase]
  | cons n rest ih =>
    intro ps deg fr hskip
    rcases procEdges_untouched env n st X (edgesFrom env.cfg n) deg fr
      (fun e he hx => hskip n (List.mem_cons_self _ _) e he hx) with ⟨hdeg1, hfr1⟩
    rcases ih (addProc ps n)
      (procEdges env n st (edgesFrom env.cfg n) deg fr).1
      (procEdges env n st (edgesFrom env.cfg n) deg fr).2
      (fun m hm => hskip m (List.mem_cons_of_mem _ hm)) with ⟨hdeg2, hfr2⟩
    constructor
    · simp only [succPhase]
      rw [hdeg2, hdeg1]
    · simp only [succPhase]
      rw [hfr2, hfr1]

theorem succPhase_fires (env : RunEnv) (st : RunState) (P Q : String) :
    ∀ (ns ps : List String) (deg : DegMap) (fr : List String),
      P ∈ ns →
      (∀ n ∈ ns, n ≠ P → ∀ e ∈ edgesFrom env.cfg n, e.tgt = Q →
        followEdge env n st e = false) →
      (∃ e ∈ edgesFrom env.cfg P, e.tgt = Q ∧ followEdge env P st e = true) →
      degGet deg Q = 1 →
      Q ∈ (succPhase env st ns ps deg fr).2.2 := by
  intro ns
  induction ns with
  | nil => intro ps deg fr h; simp at h
  | cons n rest ih =>
    intro ps deg fr hP hskip hedge hdeg
    by_cases hn : n = P
    · subst hn
      have hfire := procEdges_fires env n st Q (edgesFrom env.cfg n) deg fr
        hedge hdeg
      simp only [succPhase]
      exact succPhase_fr_mono env st _ _ _ _ hfire
    · rcases procEdges_untouched env n st Q (edgesFrom env.cfg n) deg fr
        (fun e he hx => hskip n (List.mem_cons_self _ _) hn e he hx)
        with ⟨hdeg1, _⟩
      have hP' : P ∈ rest := by
        rcases List.mem_cons.mp hP with h1 | h1
        · exact absurd h1.symm hn
        · exact h1
      simp only [succPhase]
      exact ih _ _ _ hP' (fun m hm => hskip m (List.mem_cons_of_mem _ hm)) hedge
        (by rw [hdeg1]; exact hdeg)

/-- One step of the in-degree bookkeeping invariant: handling one frontier
node preserves the remaining-predecessor bound. -/
theorem succPhase_inv_step (env : RunEnv) (st : RunState) (J n : String)
    (hJs : J ∉ seedFrontier env.cfg) (hnd : env.cfg.edges.Nodup)
    {rest ps : List String} {deg : DegMap} (fr : List String)
    (hnr : n ∉ rest)
    (hineq : remCount env.cfg J ps + debt env.cfg J ps (n :: rest) ≤
      degGet deg J) :
    remCount env.cfg J (addProc ps n) + debt env.cfg J (addProc ps n) rest ≤
      degGet (procEdges env n st (edgesFrom env.cfg n) deg fr).1 J := by
  have hle1 := edgesFrom_filter_tgt_le_one hnd n J
  rcases procEdges_key_one env n st J (edgesFrom env.cfg n) deg fr hle1
    with ⟨hdegge, _⟩
  by_cases hedge : ∃ e ∈ edgesFrom env.cfg n, e.tgt = J
  · rcases hedge with ⟨e, he, htgt⟩
    have hpred : n ∈ predsList env.cfg J :=
      pred_of_edge (mem_edgesFrom.mp he).1 (mem_edgesFrom.mp he).2 htgt hJs
    by_cases hnp : n ∈ ps
    · have hd1 : debt env.cfg J ps (n :: rest) =
          debt env.cfg J ps rest + 1 := by
        rw [debt_cons, if_pos ⟨hpred, hnp⟩]
      rw [addProc_of_mem hnp]
      rw [hd1] at hineq
      omega
    · have hrc : remCount env.cfg J ps =
          remCount env.cfg J (addProc ps n) + 1 :=
        remCount_addProc_pred hpred hnp
      have hd1 : debt env.cfg J ps (n :: rest) = debt env.cfg J ps rest := by
        rw [debt_cons, if_neg (fun hc => hnp hc.2)]
        simp
      have hd2 : debt env.cfg J (addProc ps n) rest =
          debt env.cfg J ps rest := debt_addProc_head env.cfg J hnr
      rw [hd2]
      rw [hd1, hrc] at hineq
      omega
  · push_neg at hedge
    have huntouched : ∀ e ∈ edgesFrom env.cfg n, e.tgt = J →
        followEdge env n st e = false :=
      fun e he hc => absurd hc (hedge e he)
    have hdeq : degGet (procEdges env n st (edgesFrom env.cfg n) deg fr).1 J =
        degGet deg J :=
      (procEdges_untouched env n st J (edgesFrom env.cfg n) deg fr huntouched).1
    have hnpred : n ∉ predsList env.cfg J := by
      intro hc
      rcases mem_predsList.mp hc with ⟨e, he, htgt, hfrm, _⟩
      exact hedge e (mem_edgesFrom.mpr ⟨he, hfrm⟩) htgt
    have hrc : remCount env.cfg J (addProc ps n) = remCount env.cfg J ps :=
      remCount_addProc_not_pred hnpred
    have hd1 : debt env.cfg J ps (n :: rest) = debt env.cfg J ps rest := by
      rw [debt_cons, if_neg (fun hc => hnpred hc.1)]
      simp
    have hd2 : debt env.cfg J (addProc ps n) rest =
        debt env.cfg J ps rest := debt_addProc_head env.cfg J hnr
    rw [hdeq, hrc, hd2]
    rw [hd1] at hineq
    exact hineq

/-- Count bound through the whole successor phase: a non-seeded node is
appended at most once, and not at all once its stored in-degree is
exhausted. -/
theorem succPhase_count (env : RunEnv) (st : RunState) (J : String)
    (hJs : J ∉ seedFrontier env.cfg) (hnd : env.cfg.edges.Nodup) :
    ∀ (ns ps : List String) (deg : DegMap) (fr : List String),
      ns.Nodup →
      remCount env.cfg J ps + debt env.cfg J ps ns ≤ degGet deg J →
      ((succPhase env st ns ps deg fr).2.2.count J ≤ fr.count J + 1 ∧
        (degGet deg J = 0 →
          (succPhase env st ns ps deg fr).2.2.count J = fr.count J ∧
            degGet (succPhase env st ns ps deg fr).2.1 J = 0)) := by
  intro ns
  induction ns with
  | nil =>
    intro ps deg fr _ _
    constructor
    · simp [succPhase]
    · intro hz
      exact ⟨by simp [succPhase], by simp [succPhase]; exact hz⟩
  | cons n rest ih =>
    intro ps deg fr hnodup hineq
    have hnr : n ∉ rest := (List.nodup_cons.mp hnodup).1
    have hrestnd : rest.Nodup := (List.nodup_cons.mp hnodup).2
    set r := procEdges env n st (edgesFrom env.cfg n) deg fr with hr
    have hstep : succPhase env st (n :: rest) ps deg fr =
        succPhase env st rest (addProc ps n) r.1 r.2 := rfl
    have hinv2 : remCount env.cfg J (addProc ps n) +
        debt env.cfg J (addProc ps n) rest ≤ degGet r.1 J :=
      succPhase_inv_step env st J n hJs hnd fr hnr hineq
    have hnoedge_of_z : degGet deg J = 0 →
        ∀ e ∈ edgesFrom env.cfg n, e.tgt ≠ J := by
      intro hz e he hc
      have hpred : n ∈ predsList env.cfg J :=
        pred_of_edge (mem_edgesFrom.mp he).1 (mem_edgesFrom.mp he).2 hc hJs
      by_cases hnp : n ∈ ps
      · have hdge : debt env.cfg J ps (n :: rest) =
            debt env.cfg J ps rest + 1 := by
          rw [debt_cons, if_pos ⟨hpred, hnp⟩]
        omega
      · have hge : 1 ≤ remCount env.cfg J ps := by
          have : n ∈ (predsOf env.cfg J).filter (fun x => x ∉ ps) := by
            simp [Finset.mem_filter, predsOf, List.mem_toFinset, hpred, hnp]
          exact Finset.card_pos.mpr ⟨n, this⟩
        omega
    rcases procEdges_count env n st J (edgesFrom env.cfg n) deg fr
      (edgesFrom_filter_tgt_le_one hnd n J) with hsame | ⟨hplus, hzero⟩
    · have hih := ih (addProc ps n) r.1 r.2 hrestnd hinv2
      constructor
      · rw [hstep]
        calc (succPhase env st rest (addProc ps n) r.1 r.2).2.2.count J
            ≤ r.2.count J + 1 := hih.1
          _ = fr.count J + 1 := by rw [hsame]
      · intro hz
        have huntouched := procEdges_untouched_count env n st J
          (edgesFrom env.cfg n) deg fr
          (fun e he hc => absurd hc (hnoedge_of_z hz e he))
        have hdz : degGet r.1 J = 0 := by
          have : degGet r.1 J = degGet deg J := huntouched.1
          rw [this, hz]
        have hih2 := (ih (addProc ps n) r.1 r.2 hrestnd hinv2).2 hdz
        rw [hstep]
        exact ⟨by rw [hih2.1, huntouched.2], hih2.2⟩
    · have hih2 := (ih (addProc ps n) r.1 r.2 hrestnd hinv2).2 hzero
      constructor
      · rw [hstep, hih2.1, hplus]
      · intro hz
        exfalso
        have huntouched := procEdges_untouched_count env n st J
          (edgesFrom env.cfg n) deg fr
          (fun e he hc => absurd hc (hnoedge_of_z hz e he))
        rw [huntouched.2] at hplus
        omega

/-- Preservation of the in-degree bookkeeping invariant through the whole
successor phase, together with the join conclusion: whenever `J` ends up in
the frontier, all its predecessors are processed. -/
theorem succPhase_join (env : RunEnv) (st : RunState) (J : String)
    (hJs : J ∉ seedFrontier env.cfg) (hnd : env.cfg.edges.Nodup) :
    ∀ (ns ps : List String) (deg : DegMap) (fr : List String),
      ns.Nodup →
      remCount env.cfg J ps + debt env.cfg J ps ns ≤ degGet deg J →
      (J ∈ fr → ∀ X ∈ predsList env.cfg J, X ∈ ps) →
      remCount env.cfg J (succPhase env st ns ps deg fr).1 ≤
          degGet (succPhase env st ns ps deg fr).2.1 J ∧
        (J ∈ (succPhase env st ns ps deg fr).2.2 →
          ∀ X ∈ predsList env.cfg J, X ∈ (succPhase env st ns ps deg fr).1) := by
  intro ns
  induction ns with
  | nil =>
    intro ps deg fr _ hineq hfr
    simp only [succPhase]
    constructor
    · rw [debt_nil] at hineq
      omega
    · exact hfr
  | cons n rest ih =>
    intro ps deg fr hnodup hineq hfr
    have hnr : n ∉ rest := (List.nodup_cons.mp hnodup).1
    have hrestnd : rest.Nodup := (List.nodup_cons.mp hnodup).2
    set r := procEdges env n st (edgesFrom env.cfg n) deg fr with hr
    have hstep : succPhase env st (n :: rest) ps deg fr =
        succPhase env st rest (addProc ps n) r.1 r.2 := rfl
    have hle1 : ((edgesFrom env.cfg n).filter (fun e => e.tgt == J)).length ≤ 1 :=
      edgesFrom_filter_tgt_le_one hnd n J
    rcases procEdges_key_one env n st J (edgesFrom env.cfg n) deg fr hle1
      with ⟨hdegge, hmem⟩
    have hdegge' : degGet deg J - 1 ≤ degGet r.1 J := hdegge
    -- the new frontier-membership hypothesis
    have hfr' : J ∈ r.2 → ∀ X ∈ predsList env.cfg J, X ∈ addProc ps n := by
      intro hJ X hX
      rcases hmem hJ with hin | ⟨⟨e, he, htgt, hfollow⟩, hdle⟩
      · exact mem_addProc_of_mem n (hfr hin X hX)
      · have hpred : n ∈ predsList env.cfg J :=
          pred_of_edge (mem_edgesFrom.mp he).1 (mem_edgesFrom.mp he).2 htgt hJs
        by_cases hnp : n ∈ ps
        · have hd1 : debt env.cfg J ps (n :: rest) =
              debt env.cfg J ps rest + 1 := by
            rw [debt_cons, if_pos ⟨hpred, hnp⟩]
          have hzero : remCount env.cfg J ps = 0 := by
            rw [hd1] at hineq
            omega
          exact mem_addProc_of_mem n (remCount_zero_subset hzero X hX)
        · have hge1 : 1 ≤ remCount env.cfg J ps := by
            have : n ∈ (predsOf env.cfg J).filter (fun x => x ∉ ps) := by
              simp [Finset.mem_filter, predsOf, List.mem_toFinset, hpred, hnp]
            exact Finset.card_pos.mpr ⟨n, this⟩
          have hone : remCount env.cfg J ps = 1 := by omega
          rcases remCount_one_subset hone hpred hnp X hX with hX1 | hX1
          · exact mem_addProc_of_mem n hX1
          · exact mem_addProc.mpr (Or.inr hX1)
    -- the new arithmetic invariant
    have hineq' : remCount env.cfg J (addProc ps n) +
        debt env.cfg J (addProc ps n) rest ≤ degGet r.1 J := by
      by_cases hedge : ∃ e ∈ edgesFrom env.cfg n, e.tgt = J
      · rcases hedge with ⟨e, he, htgt⟩
        have hpred : n ∈ predsList env.cfg J :=
          pred_of_edge (mem_edgesFrom.mp he).1 (mem_edgesFrom.mp he).2 htgt hJs
        by_cases hnp : n ∈ ps
        · have hd1 : debt env.cfg J ps (n :: rest) =
              debt env.cfg J ps rest + 1 := by
            rw [debt_cons, if_pos ⟨hpred, hnp⟩]
          rw [addProc_of_mem hnp]
          rw [hd1] at hineq
          omega
        · have hrc : remCount env.cfg J ps =
              remCount env.cfg J (addProc ps n) + 1 :=
            remCount_addProc_pred hpred hnp
          have hd1 : debt env.cfg J ps (n :: rest) = debt env.cfg J ps rest := by
            rw [debt_cons, if_neg (fun hc => hnp hc.2)]
            simp
          have hd2 : debt env.cfg J (addProc ps n) rest =
              debt env.cfg J ps rest := debt_addProc_head env.cfg J hnr
          rw [hd2]
          rw [hd1, hrc] at hineq
          omega
      · push_neg at hedge
        have huntouched : ∀ e ∈ edgesFrom env.cfg n, e.tgt = J →
            followEdge env n st e = false :=
          fun e he hc => absurd hc (hedge e he)
        have hdeq : degGet r.1 J = degGet deg J :=
          (procEdges_untouched env n st J (edgesFrom env.cfg n) deg fr
            huntouched).1
        have hnpred : n ∉ predsList env.cfg J := by
          intro hc
          rcases mem_predsList.mp hc with ⟨e, he, htgt, hfrm, _⟩
          exact hedge e (mem_edgesFrom.mpr ⟨he, hfrm⟩) htgt
        have hrc : remCount env.cfg J (addProc ps n) = remCount env.cfg J ps :=
          remCount_addProc_not_pred hnpred
        have hd1 : debt env.cfg J ps (n :: rest) = debt env.cfg J ps rest := by
          rw [debt_cons, if_neg (fun hc => hnpred hc.1)]
          simp
        have hd2 : debt env.cfg J (addProc ps n) rest =
            debt env.cfg J ps rest := debt_addProc_head env.cfg J hnr
        rw [hdeq, hrc, hd2]
        rw [hd1] at hineq
        exact hineq
    rw [hstep]
    exact ih (addProc ps n) r.1 r.2 hrestnd hineq' hfr'

/-! ### Pass-level lemmas -/

/-- Canonical unfolding of one pass through the collect-phase
characterization. -/
theorem runPass_eq (env : RunEnv) (F : List String) (s : SchedState) :
    runPass env F s =
      { frontier := (passSucc env F s).2.2.filter
          (fun n => !((passSucc env F s).1.contains n)),
        processed := (passSucc env F s).1,
        state := (passExec env F s).1,
        logs := (passExec env F s).2,
        deg := (passSucc env F s).2.1 } := by
  simp only [runPass, collectPhase_spec, passSucc, passExec, passTasks,
    passUnknowns]

/-- The processed ids after a pass are the old ones plus the frontier, the
list stays duplicate-free, and it grows by an append. -/
theorem runPass_processed (env : RunEnv) (F : List String) (s : SchedState) :
    (∃ l, (runPass env F s).processed = s.processed ++ l) ∧
      (∀ x, x ∈ (runPass env F s).processed ↔ x ∈ s.processed ∨ x ∈ F) ∧
      (s.processed.Nodup → (runPass env F s).processed.Nodup) := by
  rw [runPass_eq]
  show (∃ l, (passSucc env F s).1 = s.processed ++ l) ∧ _ ∧ _
  unfold passSucc
  rw [succPhase_processed]
  rcases foldl_addProc_spec (passUnknowns env F) s.processed with ⟨l1, hl1, hm1, hn1⟩
  rcases foldl_addProc_spec F ((passUnknowns env F).foldl addProc s.processed)
    with ⟨l2, hl2, hm2, hn2⟩
  refine ⟨⟨l1 ++ l2, by rw [hl2, hl1, List.append_assoc]⟩, ?_, ?_⟩
  · intro x
    rw [hm2 x, hm1 x]
    constructor
    · rintro ((hx | hx) | hx)
      · exact Or.inl hx
      · exact Or.inr (List.mem_filter.mp hx).1
      · exact Or.inr hx
    · rintro (hx | hx)
      · exact Or.inl (Or.inl hx)
      · exact Or.inr hx
  · intro h
    exact hn2 (hn1 h)

/-- The log after a pass extends the old log by one entry per frontier node:
first the unknown-callable entries, then the executed ones, in order. -/
theorem runPass_logs (env : RunEnv) (F : List String) (s : SchedState) :
    ∃ new, (runPass env F s).logs = s.logs ++ new ∧
      new.map (·.node) = passUnknowns env F ++ passTasks env F ∧
      ∀ e ∈ new, e.node ∈ F ∧
        (env.callables e.node = none →
          e.output = [("error", "unknown node callable")]) ∧
        (∀ fn, env.callables e.node = some fn →
          ∃ st0, e.output = invoke_node fn st0) := by
  rw [runPass_eq]
  show ∃ new, (passExec env F s).2 = s.logs ++ new ∧ _ ∧ _
  unfold passExec
  rcases execTasks_logs_append env (passTasks env F) s.state
    (s.logs ++ (passUnknowns env F).map unknownEntry) with ⟨new2, hnew2, hsh2⟩
  have hall : ∀ n ∈ passTasks env F, (env.callables n).isSome :=
    fun n hn => by simpa using (List.mem_filter.mp hn).2
  have hnodes := execTasks_logsNodes env (passTasks env F) s.state
    (s.logs ++ (passUnknowns env F).map unknownEntry) hall
  have hunk : ((passUnknowns env F).map unknownEntry).map (·.node) =
      passUnknowns env F := by
    rw [List.map_map]
    show List.map (fun n => n) _ = _
    exact List.map_id _
  have hnew2nodes : new2.map (·.node) = passTasks env F := by
    rw [hnew2] at hnodes
    rw [List.map_append] at hnodes
    exact List.append_cancel_left hnodes
  refine ⟨(passUnknowns env F).map unknownEntry ++ new2, ?_, ?_, ?_⟩
  · rw [hnew2, List.append_assoc]
  · rw [List.map_append, hunk, hnew2nodes]
  · intro e he
    rcases List.mem_append.mp he with he1 | he1
    · rcases List.mem_map.mp he1 with ⟨n, hn, hne⟩
      have hnone : env.callables n = none := by
        have := (List.mem_filter.mp hn).2
        simpa [Option.isNone_iff_eq_none] using this
      have hnode : e.node = n := by rw [← hne]; rfl
      refine ⟨hnode ▸ (List.mem_filter.mp hn).1, ?_, ?_⟩
      · intro _
        rw [← hne]
        rfl
      · intro fn hfn
        rw [hnode, hnone] at hfn
        exact absurd hfn (by simp)
    · rcases hsh2 e he1 with ⟨hmem, fn, st0, hfn, hout⟩
      refine ⟨(List.mem_filter.mp hmem).1, ?_, ?_⟩
      · intro hc
        rw [hc] at hfn
        exact absurd hfn (by simp)
      · intro fn2 hfn2
        rw [hfn] at hfn2
        exact ⟨st0, by rw [hout, Option.some_inj.mp hfn2]⟩

theorem mem_filtFrontier {s : SchedState} {x : String} :
    x ∈ filtFrontier s ↔ x ∈ s.frontier ∧ x ≠ "" ∧ x ∉ s.processed := by
  unfold filtFrontier
  rw [List.mem_filter]
  simp [List.contains, List.elem_iff]

/-- Every frontier id after a pass is unprocessed and is either an old
frontier id or an edge target. -/
theorem runPass_frontier_sub (env : RunEnv) (F : List String) (s : SchedState) :
    ∀ x ∈ (runPass env F s).frontier,
      x ∉ (runPass env F s).processed ∧
      (x ∈ F ∨ ∃ e ∈ env.cfg.edges, x = e.tgt) := by
  intro x hx
  rw [runPass_eq] at hx
  simp only [] at hx
  rcases List.mem_filter.mp hx with ⟨hmem, hcond⟩
  have hnp : x ∉ (passSucc env F s).1 := by
    simpa [List.contains, List.elem_iff] using hcond
  constructor
  · rw [runPass_eq]
    exact hnp
  · unfold passSucc at hmem
    rcases succPhase_frontier env (passExec env F s).1 F
      ((passUnknowns env F).foldl addProc s.processed) s.deg F
      with ⟨app, happ, hsh⟩
    rw [happ] at hmem
    rcases List.mem_append.mp hmem with h | h
    · exact Or.inl h
    · exact Or.inr (hsh x h)

/-! ### The main loop -/

/-- Invariant propagation through the loop, together with the exit shape:
the loop ends with an empty frontier or with the safety break. -/
theorem runLoop_sound (env : RunEnv) (P : SchedState → Prop)
    (hpass : ∀ s, P s → s.frontier ≠ [] → filtFrontier s ≠ [] →
      P (runPass env (filtFrontier s) s))
    (hclear : ∀ s, P s → (∀ n ∈ s.frontier, n = "" ∨ n ∈ s.processed) →
      P { s with frontier := [] }) :
    ∀ (fuel : Nat) (s s' : SchedState), P s → runLoop env fuel s = some s' →
      P s' ∧ (s'.frontier = [] ∨ totalNodes env.cfg ≤ s'.processed.length) := by
  intro fuel
  induction fuel with
  | zero => intro s s' _ h; simp [runLoop] at h
  | succ m ih =>
    intro s s' hP h
    rw [runLoop] at h
    by_cases h1 : s.frontier.isEmpty
    · rw [if_pos h1] at h
      obtain rfl := Option.some.inj h
      exact ⟨hP, Or.inl (List.isEmpty_iff.mp h1)⟩
    · rw [if_neg h1] at h
      by_cases h2 : (filtFrontier s).isEmpty
      · rw [if_pos h2] at h
        obtain rfl := Option.some.inj h
        have hptw : ∀ n ∈ s.frontier, n = "" ∨ n ∈ s.processed := by
          intro n hn
          by_contra hc
          push_neg at hc
          have : n ∈ filtFrontier s :=
            mem_filtFrontier.mpr ⟨hn, hc.1, hc.2⟩
          rw [List.isEmpty_iff] at h2
          rw [h2] at this
          simp at this
        exact ⟨hclear s hP hptw, Or.inl rfl⟩
      · rw [if_neg h2] at h
        have hFne : filtFrontier s ≠ [] := fun hc => h2 (by simp [hc])
        have hfne : s.frontier ≠ [] := fun hc => h1 (by simp [hc])
        have hP2 := hpass s hP hfne hFne
        by_cases h3 : totalNodes env.cfg ≤
            (runPass env (filtFrontier s) s).processed.length
        · rw [if_pos h3] at h
          obtain rfl := Option.some.inj h
          exact ⟨hP2, Or.inr h3⟩
        · rw [if_neg h3] at h
          exact ih _ _ hP2 h

/-! ### Termination -/

theorem nodup_subset_length {l L : List String} (hnd : l.Nodup)
    (hsub : ∀ x ∈ l, x ∈ L) : l.length ≤ L.length := by
  have h1 : l.toFinset.card = l.length := List.toFinset_card_of_nodup hnd
  have h2 : l.toFinset ⊆ L.toFinset :=
    fun x hx => List.mem_toFinset.mpr (hsub x (List.mem_toFinset.mp hx))
  calc l.length = l.toFinset.card := h1.symm
    _ ≤ L.toFinset.card := Finset.card_le_card h2
    _ ≤ L.length := List.toFinset_card_le L

theorem tgt_mem_idList {g : GraphConfig} {e : Edge} (h : e ∈ g.edges) :
    e.tgt ∈ idList g := by
  unfold idList
  rw [List.mem_dedup, List.mem_append]
  exact Or.inl (List.mem_map.mpr ⟨e, h, rfl⟩)

theorem node_mem_idList {g : GraphConfig} {n : String} (h : n ∈ g.nodes) :
    n ∈ idList g := by
  unfold idList
  rw [List.mem_dedup, List.mem_append]
  exact Or.inr h

theorem seed_mem_idList {g : GraphConfig} {x : String}
    (h : x ∈ seedFrontier g) : x ∈ idList g := by
  unfold seedFrontier at h
  rcases List.mem_map.mp h with ⟨e, he, rfl⟩
  exact tgt_mem_idList (List.mem_filter.mp he).1

theorem baseInv_runPass (env : RunEnv) (s : SchedState)
    (hB : BaseInv env s) : BaseInv env (runPass env (filtFrontier s) s) := by
  obtain ⟨hnd, hps, hfr⟩ := hB
  rcases runPass_processed env (filtFrontier s) s with ⟨_, hmem, hnodup⟩
  refine ⟨hnodup hnd, ?_, ?_⟩
  · intro x hx
    rcases (hmem x).mp hx with h | h
    · exact hps x h
    · exact hfr x (mem_filtFrontier.mp h).1
  · intro x hx
    rcases runPass_frontier_sub env (filtFrontier s) s x hx with ⟨_, hF | ⟨e, he, rfl⟩⟩
    · exact hfr x (mem_filtFrontier.mp hF).1
    · exact tgt_mem_idList he

theorem runPass_processed_lt (env : RunEnv) (s : SchedState)
    (hne : filtFrontier s ≠ []) :
    s.processed.length + 1 ≤
      (runPass env (filtFrontier s) s).processed.length := by
  rcases runPass_processed env (filtFrontier s) s with ⟨⟨l, hl⟩, hmem, _⟩
  rcases List.exists_mem_of_ne_nil _ hne with ⟨x, hx⟩
  have hxps : x ∉ s.processed := (mem_filtFrontier.mp hx).2.2
  have hxin : x ∈ s.processed ++ l := by
    rw [← hl]
    exact (hmem x).mpr (Or.inr hx)
  have hxl : x ∈ l := by
    rcases List.mem_append.mp hxin with h | h
    · exact absurd h hxps
    · exact h
  have : 1 ≤ l.length := List.length_pos.mpr (List.ne_nil_of_mem hxl)
  rw [hl, List.length_append]
  omega

theorem runLoop_isSome (env : RunEnv) :
    ∀ (fuel : Nat) (s : SchedState), BaseInv env s →
      (idList env.cfg).length + 1 ≤ fuel + s.processed.length →
      (runLoop env fuel s).isSome := by
  intro fuel
  induction fuel with
  | zero =>
    intro s hB hle
    exfalso
    have := nodup_subset_length hB.1 hB.2.1
    omega
  | succ m ih =>
    intro s hB hle
    rw [runLoop]
    by_cases h1 : s.frontier.isEmpty
    · rw [if_pos h1]; rfl
    · rw [if_neg h1]
      by_cases h2 : (filtFrontier s).isEmpty
      · rw [if_pos h2]; rfl
      · rw [if_neg h2]
        by_cases h3 : totalNodes env.cfg ≤
            (runPass env (filtFrontier s) s).processed.length
        · rw [if_pos h3]; rfl
        · rw [if_neg h3]
          have hFne : filtFrontier s ≠ [] := fun hc => h2 (by simp [hc])
          have step := runPass_processed_lt env s hFne
          exact ih _ (baseInv_runPass env s hB) (by omega)

theorem baseInv_initSched (env : RunEnv) (init : RunState) :
    BaseInv env (initSched env init) := by
  refine ⟨List.nodup_nil, by simp [initSched], ?_⟩
  intro x hx
  exact seed_mem_idList hx

theorem run_sched_total (env : RunEnv) (init : RunState) :
    ∃ s', run_sched env init = some s' := by
  have h := runLoop_isSome env (runFuel env.cfg) (initSched env init)
    (baseInv_initSched env init) (by simp [runFuel, initSched])
  exact Option.isSome_iff_exists.mp h

/-- Every run terminates within the fuel bound and is finalized with status
finished. -/
theorem run_graph_finished (env : RunEnv) (init : RunState) :
    ∃ o, run_graph env init = some o ∧ o.status = "finished" := by
  rcases run_sched_total env init with ⟨s', hs⟩
  exact ⟨⟨"finished", s'.logs, s'.state⟩, by simp [run_graph, hs], rfl⟩

/-- Propagation of the unknown-callable log shape through the loop. -/
theorem runLoop_unknownShape (env : RunEnv) (init : RunState)
    {s' : SchedState} (h : run_sched env init = some s') :
    UnknownShapeInv env s' := by
  have hmain := runLoop_sound env (fun s => UnknownShapeInv env s)
    (fun s hP _ _ => by
      intro e he hc
      rcases runPass_logs env (filtFrontier s) s with ⟨new, hl, _, hsh⟩
      rw [hl] at he
      rcases List.mem_append.mp he with h1 | h1
      · exact hP e h1 hc
      · exact (hsh e h1).2.1 hc)
    (fun s hP _ => by
      intro e he hc
      exact hP e he hc)
    (runFuel env.cfg) (initSched env init) s'
    (by intro e he hc; simp [initSched] at he) h
  exact hmain.1

/-! ### Core invariant for the join and idempotence claims -/

/-- In-degree bound through the successor phase (arithmetic part only). -/
theorem succPhase_deg (env : RunEnv) (st : RunState) (J : String)
    (hJs : J ∉ seedFrontier env.cfg) (hnd : env.cfg.edges.Nodup) :
    ∀ (ns ps : List String) (deg : DegMap) (fr : List String),
      ns.Nodup →
      remCount env.cfg J ps + debt env.cfg J ps ns ≤ degGet deg J →
      remCount env.cfg J (succPhase env st ns ps deg fr).1 ≤
        degGet (succPhase env st ns ps deg fr).2.1 J := by
  intro ns
  induction ns with
  | nil =>
    intro ps deg fr _ hineq
    simp only [succPhase]
    rw [debt_nil] at hineq
    omega
  | cons n rest ih =>
    intro ps deg fr hnodup hineq
    have hnr : n ∉ rest := (List.nodup_cons.mp hnodup).1
    have hrestnd : rest.Nodup := (List.nodup_cons.mp hnodup).2
    have hinv2 := succPhase_inv_step env st J n hJs hnd fr hnr hineq
    exact ih (addProc ps n)
      (procEdges env n st (edgesFrom env.cfg n) deg fr).1
      (procEdges env n st (edgesFrom env.cfg n) deg fr).2 hrestnd hinv2

theorem filter_and (p q : String → Bool) :
    ∀ l : List String, l.filter (fun n => p n && q n) = (l.filter p).filter q := by
  intro l
  induction l with
  | nil => rfl
  | cons x t ih =>
    cases hp : p x <;> cases hq : q x <;>
      simp [List.filter_cons, hp, hq, ih]

theorem filtFrontier_eq (s : SchedState) :
    filtFrontier s = (s.frontier.filter (fun n => !(n == ""))).filter
      (fun n => !(s.processed.contains n)) := by
  unfold filtFrontier
  exact filter_and _ _ _

theorem seedFrontier_nodup {g : GraphConfig} (hnd : g.edges.Nodup) :
    (seedFrontier g).Nodup := by
  unfold seedFrontier
  apply List.Nodup.map_on
  · intro e1 h1 e2 h2 heq
    have hf1 : e1.frm = "START" := by simpa using (List.mem_filter.mp h1).2
    have hf2 : e2.frm = "START" := by simpa using (List.mem_filter.mp h2).2
    cases e1
    cases e2
    simp_all
  · exact (List.filter_sublist _).nodup hnd

theorem remCount_nil (g : GraphConfig) (J : String) :
    remCount g J [] = (predsList g J).length := by
  unfold remCount
  have hfil : (predsOf g J).filter (fun x => x ∉ ([] : List String)) =
      predsOf g J := by
    apply Finset.filter_true_of_mem
    intro x _
    simp
  rw [hfil]
  unfold predsOf
  rw [List.card_toFinset]
  rw [List.dedup_eq_self.mpr]
  exact List.nodup_dedup _

/-- The combined counting bound holds when the successor phase starts, after
the unresolvable frontier nodes were marked processed. -/
theorem pass_entry_inv (env : RunEnv) (s : SchedState) (J : String)
    (hb : remCount env.cfg J s.processed ≤ degGet s.deg J)
    (hFnd : (filtFrontier s).Nodup) :
    remCount env.cfg J
        ((passUnknowns env (filtFrontier s)).foldl addProc s.processed) +
      debt env.cfg J
        ((passUnknowns env (filtFrontier s)).foldl addProc s.processed)
        (filtFrontier s) ≤ degGet s.deg J := by
  have hdisj : ∀ x ∈ filtFrontier s, x ∉ s.processed :=
    fun x hx => (mem_filtFrontier.mp hx).2.2
  have husnd : (passUnknowns env (filtFrontier s)).Nodup :=
    (List.filter_sublist _).nodup hFnd
  have husdisj : ∀ x ∈ passUnknowns env (filtFrontier s), x ∉ s.processed :=
    fun x hx => hdisj x (List.mem_filter.mp hx).1
  have hussub : ∀ x ∈ passUnknowns env (filtFrontier s), x ∈ filtFrontier s :=
    fun x hx => (List.mem_filter.mp hx).1
  have h0 : debt env.cfg J s.processed (filtFrontier s) = 0 :=
    debt_zero_of_disjoint hdisj
  have hfold := collect_fold_inv env.cfg J (passUnknowns env (filtFrontier s))
    s.processed (filtFrontier s) husnd husdisj hussub hFnd
  omega

theorem coreInv_init (env : RunEnv) (init : RunState) (hG : GoodCfg env.cfg) :
    CoreInv env (initSched env init) := by
  refine ⟨?_, ?_, ?_⟩
  · exact (List.filter_sublist _).nodup (seedFrontier_nodup hG.1)
  · intro J _
    show remCount env.cfg J [] ≤ degGet (initInDeg env.cfg) J
    rw [remCount_nil]
    by_cases hJn : J ∈ env.cfg.nodes
    · rw [degGet_initInDeg_mem _ _ hJn]
    · rw [degGet_initInDeg_not_mem _ _ hJn]
      have hnil : predsList env.cfg J = [] := by
        by_contra hne
        rcases List.exists_mem_of_ne_nil _ hne with ⟨X, hX⟩
        rcases mem_predsList.mp hX with ⟨e, he, htgt, _, _⟩
        exact hJn (htgt ▸ hG.2 e he)
      simp [hnil]
  · intro T hT _
    exact Or.inl hT

theorem coreInv_clear (env : RunEnv) (s : SchedState) (h : CoreInv env s)
    (hptw : ∀ n ∈ s.frontier, n = "" ∨ n ∈ s.processed) :
    CoreInv env { s with frontier := [] } := by
  obtain ⟨_, hb, hc⟩ := h
  refine ⟨by simp, hb, ?_⟩
  intro T hT hTne
  rcases hc T hT hTne with hfr | hpr
  · rcases hptw T hfr with h1 | h1
    · exact absurd h1 hTne
    · exact Or.inr h1
  · exact Or.inr hpr

theorem coreInv_runPass (env : RunEnv) (hG : GoodCfg env.cfg) (s : SchedState)
    (hC : CoreInv env s) : CoreInv env (runPass env (filtFrontier s) s) := by
  obtain ⟨ha, hb, hc⟩ := hC
  have hFnd : (filtFrontier s).Nodup := by
    rw [filtFrontier_eq]
    exact (List.filter_sublist _).nodup ha
  rcases runPass_processed env (filtFrontier s) s with ⟨_, hpmem, _⟩
  refine ⟨?_, ?_, ?_⟩
  · rw [List.nodup_iff_count_le_one]
    intro x
    by_cases hx : x ∈ ((runPass env (filtFrontier s) s).frontier.filter
        (fun n => !(n == "")))
    · have hxf : x ∈ (runPass env (filtFrontier s) s).frontier :=
        (List.mem_filter.mp hx).1
      have hxne : x ≠ "" := by simpa using (List.mem_filter.mp hx).2
      rcases runPass_frontier_sub env (filtFrontier s) s x hxf with ⟨hxnp, _⟩
      have hxseed : x ∉ seedFrontier env.cfg := by
        intro hcseed
        rcases hc x hcseed hxne with hfr | hpr
        · by_cases hxp : x ∈ s.processed
          · exact hxnp ((hpmem x).mpr (Or.inl hxp))
          · exact hxnp ((hpmem x).mpr
              (Or.inr (mem_filtFrontier.mpr ⟨hfr, hxne, hxp⟩)))
        · exact hxnp ((hpmem x).mpr (Or.inl hpr))
      have hentry := pass_entry_inv env s x (hb x hxseed) hFnd
      have hcount := (succPhase_count env
        (passExec env (filtFrontier s) s).1 x hxseed hG.1 (filtFrontier s)
        ((passUnknowns env (filtFrontier s)).foldl addProc s.processed) s.deg
        (filtFrontier s) hFnd hentry).1
      have hxF : x ∉ filtFrontier s :=
        fun hcF => hxnp ((hpmem x).mpr (Or.inr hcF))
      have hcF0 : (filtFrontier s).count x = 0 := List.count_eq_zero.mpr hxF
      have h1 : ((runPass env (filtFrontier s) s).frontier.filter
          (fun n => !(n == ""))).count x ≤
          (runPass env (filtFrontier s) s).frontier.count x :=
        (List.filter_sublist _).count_le x
      have h2 : (runPass env (filtFrontier s) s).frontier.count x ≤
          (passSucc env (filtFrontier s) s).2.2.count x := by
        rw [runPass_eq]
        exact (List.filter_sublist _).count_le x
      have h3 : (passSucc env (filtFrontier s) s).2.2.count x ≤
          (filtFrontier s).count x + 1 := hcount
      omega
    · have : ((runPass env (filtFrontier s) s).frontier.filter
          (fun n => !(n == ""))).count x = 0 := List.count_eq_zero.mpr hx
      omega
  · intro J hJseed
    have hentry := pass_entry_inv env s J (hb J hJseed) hFnd
    have hdeg := succPhase_deg env (passExec env (filtFrontier s) s).1 J hJseed
      hG.1 (filtFrontier s)
      ((passUnknowns env (filtFrontier s)).foldl addProc s.processed) s.deg
      (filtFrontier s) hFnd hentry
    rw [runPass_eq]
    exact hdeg
  · intro T hT hTne
    rcases hc T hT hTne with hfr | hpr
    · by_cases hTp : T ∈ s.processed
      · exact Or.inr ((hpmem T).mpr (Or.inl hTp))
      · exact Or.inr ((hpmem T).mpr
          (Or.inr (mem_filtFrontier.mpr ⟨hfr, hTne, hTp⟩)))
    · exact Or.inr ((hpmem T).mpr (Or.inl hpr))

/-- When the safety break fires, every declared node is processed. -/
theorem processed_complete (g : GraphConfig) {proc : List String}
    (hnd : proc.Nodup) (hsub : ∀ x ∈ proc, x ∈ g.nodes)
    (hlen : totalNodes g ≤ proc.length) : ∀ y ∈ g.nodes, y ∈ proc := by
  have h1 : proc.toFinset ⊆ g.nodes.toFinset :=
    fun x hx => List.mem_toFinset.mpr (hsub x (List.mem_toFinset.mp hx))
  have h2 : g.nodes.toFinset.card ≤ proc.toFinset.card := by
    rw [List.toFinset_card_of_nodup hnd, List.card_toFinset]
    exact hlen
  have h3 : proc.toFinset = g.nodes.toFinset :=
    Finset.eq_of_subset_of_card_le h1 h2
  intro y hy
  have : y ∈ proc.toFinset := by
    rw [h3]
    exact List.mem_toFinset.mpr hy
  exact List.mem_toFinset.mp this

/-- Every frontier node of a pass receives a log entry. -/
theorem logInv_runPass (env : RunEnv) (s : SchedState) (hl : LogInv s) :
    LogInv (runPass env (filtFrontier s) s) := by
  rcases runPass_processed env (filtFrontier s) s with ⟨_, hpmem, _⟩
  rcases runPass_logs env (filtFrontier s) s with ⟨new, hlogs, hnodes, _⟩
  intro x hx
  rcases (hpmem x).mp hx with h | h
  · rcases List.mem_map.mp (hl x h) with ⟨e, he, hne⟩
    rw [hlogs]
    exact List.mem_map.mpr ⟨e, List.mem_append_left _ he, hne⟩
  · have hxn : x ∈ new.map (·.node) := by
      rw [hnodes]
      cases hc : env.callables x with
      | none =>
        exact List.mem_append_left _
          (List.mem_filter.mpr ⟨h, by simp [hc]⟩)
      | some fn =>
        exact List.mem_append_right _
          (List.mem_filter.mpr ⟨h, by simp [hc]⟩)
    rcases List.mem_map.mp hxn with ⟨e, he, hne⟩
    rw [hlogs]
    exact List.mem_map.mpr ⟨e, List.mem_append_right _ he, hne⟩

/-- The log stays one-entry-per-node through a pass. -/
theorem onceInv_runPass (env : RunEnv) (s : SchedState)
    (hC : CoreInv env s) (hO : OnceInv s) :
    OnceInv (runPass env (filtFrontier s) s) := by
  obtain ⟨ha, _, _⟩ := hC
  obtain ⟨ho1, ho2⟩ := hO
  have hFnd : (filtFrontier s).Nodup := by
    rw [filtFrontier_eq]
    exact (List.filter_sublist _).nodup ha
  rcases runPass_processed env (filtFrontier s) s with ⟨_, hpmem, _⟩
  rcases runPass_logs env (filtFrontier s) s with ⟨new, hlogs, hnodes, hsh⟩
  have hnewnd : (new.map (·.node)).Nodup := by
    rw [hnodes, List.nodup_append]
    refine ⟨(List.filter_sublist _).nodup hFnd,
      (List.filter_sublist _).nodup hFnd, ?_⟩
    intro x hx1 hx2
    have h1 := (List.mem_filter.mp hx1).2
    have h2 := (List.mem_filter.mp hx2).2
    cases hc : env.callables x with
    | none => rw [hc] at h2; simp at h2
    | some fn => rw [hc] at h1; simp at h1
  have hnewsub : ∀ x ∈ new.map (·.node), x ∈ filtFrontier s := by
    intro x hx
    rw [hnodes] at hx
    rcases List.mem_append.mp hx with h | h
    · exact (List.mem_filter.mp h).1
    · exact (List.mem_filter.mp h).1
  constructor
  · rw [hlogs, List.map_append, List.nodup_append]
    refine ⟨ho1, hnewnd, ?_⟩
    intro x hx1 hx2
    have hxp : x ∈ s.processed := ho2 x hx1
    have hxF : x ∈ filtFrontier s := hnewsub x hx2
    exact (mem_filtFrontier.mp hxF).2.2 hxp
  · intro x hx
    rw [hlogs, List.map_append] at hx
    rcases List.mem_append.mp hx with h | h
    · exact (hpmem x).mpr (Or.inl (ho2 x h))
    · exact (hpmem x).mpr (Or.inr (hnewsub x h))

/-! ## Claim theorems -/

/-- C1 counterexample: on the cyclic graph `START→A`, `A→B`, `B→A` with no
reachable terminal the run ends with status finished, not failed, so no
structural-failure indicator is produced. -/
theorem C1_cycle_run_reports_finished :
    (run_graph cycEnv []).map (fun o => o.status) = some "finished" ∧
      (run_graph cycEnv []).map (fun o => o.status) ≠ some "failed" := by
  refine ⟨rfl, ?_⟩
  intro hc
  rw [show (run_graph cycEnv []).map (fun o => o.status) = some "finished"
    from rfl] at hc
  exact absurd (Option.some.inj hc) (by decide)

/-- C1 amended: every run, cyclic graphs included, terminates within the
fuel bound of one scheduling pass per distinct id, and the run is always
finalized with status finished: the loop cannot spin forever, but no
structural failure status is ever produced. -/
theorem C1_run_always_terminates_finished (env : RunEnv) (init : RunState) :
    ∃ o, run_graph env init = some o ∧ o.status = "finished" :=
  run_graph_finished env init

/-- C7 counterexample: with node `A` declared but unresolvable the run is
started, executes, skips `A` at runtime with an error log entry, and
finishes: the failure is not reported as a validation error before
execution. -/
theorem C7_unresolvable_runs_at_runtime :
    (run_graph unknownEnv []).map (fun o => (o.status, o.logs)) =
      some ("finished", [⟨"A", [("error", "unknown node callable")]⟩]) := rfl

/-- C7 amended: an unresolvable callable is handled inside the running
execution: the run starts and finishes with status finished, and every log
entry of an unresolvable node carries the unknown-node error record in place
of an output. -/
theorem C7_unknown_callable_is_runtime_skip (env : RunEnv) (init : RunState) :
    ∃ o, run_graph env init = some o ∧ o.status = "finished" ∧
      ∀ e ∈ o.logs, env.callables e.node = none →
        e.output = [("error", "unknown node callable")] := by
  rcases run_sched_total env init with ⟨s', hs⟩
  have hshape := runLoop_unknownShape env init hs
  refine ⟨⟨"finished", s'.logs, s'.state⟩, by simp [run_graph, hs], rfl, ?_⟩
  intro e he hc
  exact hshape e he hc

/-- C7 witness: the amended statement applied to the concrete environment
with the unresolvable node `A`. -/
theorem C7_unknown_callable_is_runtime_skip_witness :
    ∃ o, run_graph unknownEnv [] = some o ∧ o.status = "finished" ∧
      ∀ e ∈ o.logs, unknownEnv.callables e.node = none →
        e.output = [("error", "unknown node callable")] :=
  C7_unknown_callable_is_runtime_skip unknownEnv []

/-- C10: a raised exception is converted into the error dict and merged into
the run state exactly like a normal output: on the chain `A→B→C` where `A`
raises, `B` observes the message under the state key `error` (copying it to
`seen`), and the later successful output of `C` writing the same key
silently overwrites it in the final result of the finished run. -/
theorem C10_exception_becomes_error_update :
    (∀ (msg : String) (st : RunState),
      invoke_node (raiseFn msg) st = [("error", msg)]) ∧
    (run_graph (propEnv "boom") []).map
        (fun o => (o.status, o.logs.map (fun e => (e.node, e.output)),
          listGet? o.result "seen", listGet? o.result "error")) =
      some ("finished",
        [("A", [("error", "boom")]), ("B", [("seen", "boom")]),
          ("C", [("error", "overwritten")])],
        some "boom", some "overwritten") :=
  ⟨fun _ _ => rfl, rfl⟩

/-- C8 counterexample: without a persistence store there is no admission
check at all.  With a cap of one, two submissions both start immediately
and both tasks run, so the cap is not enforced from the in-process
registry. -/
theorem C8_no_store_means_no_cap :
    (start_async_run false 1 ⟨[], [], []⟩ "r1").1 = Admission.started ∧
    (start_async_run false 1 (start_async_run false 1 ⟨[], [], []⟩ "r1").2
        "r2").1 = Admission.started ∧
    (start_async_run false 1 (start_async_run false 1 ⟨[], [], []⟩ "r1").2
        "r2").2.tasks = ["r1", "r2"] := by
  refine ⟨rfl, rfl, rfl⟩

/-- C8 amended: with the store available, the admission decision queues the
run exactly when the store count of running-or-cancelling runs has reached
the cap, and a started run gets a task; without a store every submission
starts immediately and no capacity check happens. -/
theorem C8_admission_count_source (maxConc : Nat) (d : DispatchSt)
    (runId : String) :
    ((start_async_run true maxConc d runId).1 = Admission.queued ↔
      maxConc ≤ count_active_runs d.store) ∧
    ((start_async_run true maxConc d runId).1 = Admission.started →
      (start_async_run true maxConc d runId).2.tasks = d.tasks ++ [runId]) ∧
    (start_async_run false maxConc d runId).1 = Admission.started := by
  refine ⟨?_, ?_, rfl⟩
  · unfold start_async_run
    by_cases h : maxConc ≤ count_active_runs d.store
    · simp [h]
    · simp [h]
  · unfold start_async_run
    by_cases h : maxConc ≤ count_active_runs d.store
    · simp [h]
    · simp [h]

/-- C8 witness: the queued direction of the amended statement at a concrete
full store. -/
theorem C8_admission_count_source_witness :
    ((start_async_run true 1 ⟨[⟨"r0", "running"⟩], ["r0"], ["r0"]⟩ "r1").1 =
        Admission.queued ↔
      1 ≤ count_active_runs [⟨"r0", "running"⟩]) ∧
      (start_async_run true 1 ⟨[⟨"r0", "running"⟩], ["r0"], ["r0"]⟩ "r1").1 =
        Admission.queued :=
  ⟨(C8_admission_count_source 1 ⟨[⟨"r0", "running"⟩], ["r0"], ["r0"]⟩ "r1").1,
   (C8_admission_count_source 1 ⟨[⟨"r0", "running"⟩], ["r0"], ["r0"]⟩
      "r1").1.mpr (by decide)⟩

/-- C6: the dispatcher flips a locally queued run to running in the store
but never starts its scheduler task, because the promoted run already has an
in-memory record.  With a cap of one, submitting two runs and finishing the
first leaves the second marked running in the store with no task started. -/
theorem C6_promotion_flips_status_without_task :
    c6AfterSubmits.store = [⟨"r1", "running"⟩, ⟨"r2", "queued"⟩] ∧
    c6AfterSubmits.tasks = ["r1"] ∧
    c6AfterFinish.store = [⟨"r1", "finished"⟩, ⟨"r2", "running"⟩] ∧
    c6AfterFinish.tasks = [] := by
  refine ⟨rfl, rfl, rfl, rfl⟩

/-! ### Lookup helpers for the cancellation contract -/

theorem find?_key_of_mem {α : Type} (l : List (String × α)) (k : String)
    (v : α) (hnd : (l.map Prod.fst).Nodup) (hmem : (k, v) ∈ l) :
    l.find? (fun p => p.1 == k) = some (k, v) := by
  induction l with
  | nil => simp at hmem
  | cons p t ih =>
    rw [List.map_cons, List.nodup_cons] at hnd
    rcases List.mem_cons.mp hmem with h1 | h1
    · rw [← h1]
      exact List.find?_cons_of_pos _ (by simp)
    · have hp1 : p.1 ≠ k := by
        intro hc
        exact hnd.1 (hc ▸ List.mem_map.mpr ⟨(k, v), h1, rfl⟩)
      rw [List.find?_cons_of_neg _ (by simpa using hp1)]
      exact ih hnd.2 h1

theorem find?_key_eq_none {α : Type} (l : List (String × α)) (k : String)
    (h : ∀ v, (k, v) ∉ l) : l.find? (fun p => p.1 == k) = none := by
  rw [List.find?_eq_none]
  intro p hp hpk
  have hp1 : p.1 = k := by simpa using hpk
  exact h p.2 (by rw [← hp1]; exact hp)

/-- C9: Cancel returns true exactly when a live (not yet done) task exists
for the run, or no task exists and the run is known with a non-terminal
status; for a run whose status is terminal and whose task, if any, is
already done, Cancel is a no-op returning false and leaving the state
(status, logs, result) unchanged. -/
theorem C9_cancel_contract (s : CancelSt) (runId : String)
    (hT : (s.tasks.map Prod.fst).Nodup) (hR : (s.runs.map Prod.fst).Nodup) :
    ((cancel_run s runId).1 = true ↔
      ((runId, false) ∈ s.tasks ∨
        ((∀ b, (runId, b) ∉ s.tasks) ∧
          ∃ r, (runId, r) ∈ s.runs ∧ isTerminal r.status = false))) ∧
    (∀ r, (runId, r) ∈ s.runs → isTerminal r.status = true →
      (∀ b, (runId, b) ∈ s.tasks → b = true) →
      cancel_run s runId = (false, s)) := by
  cases hfT : s.tasks.find? (fun t => t.1 == runId) with
  | none =>
    have hnoT : ∀ b, (runId, b) ∉ s.tasks := by
      intro b hb
      have := List.find?_eq_none.mp hfT _ hb
      simp at this
    cases hfR : s.runs.find? (fun p => p.1 == runId) with
    | none =>
      have hnoR : ∀ r, (runId, r) ∉ s.runs := by
        intro r hr
        have := List.find?_eq_none.mp hfR _ hr
        simp at this
      have hres : cancel_run s runId = (false, s) := by
        simp [cancel_run, hfT, hfR]
      constructor
      · rw [hres]
        simp only [Bool.false_eq_true, false_iff]
        rintro (h | ⟨_, r, hr, _⟩)
        · exact hnoT false h
        · exact hnoR r hr
      · intro r hr
        exact absurd hr (hnoR r)
    | some p =>
      obtain ⟨p1, p2⟩ := p
      have hp1 : p1 = runId := by
        have := List.find?_some hfR
        simpa using this
      have hpm : (runId, p2) ∈ s.runs := by
        rw [← hp1]
        exact List.mem_of_find?_eq_some hfR
      by_cases hterm : isTerminal p2.status = true
      · have hres : cancel_run s runId = (false, s) := by
          simp [cancel_run, hfT, hfR, hterm]
        constructor
        · rw [hres]
          simp only [Bool.false_eq_true, false_iff]
          rintro (h | ⟨_, r, hr, hrterm⟩)
          · exact hnoT false h
          · have hfind := find?_key_of_mem s.runs runId r hR hr
            rw [hp1] at hfR
            rw [hfR] at hfind
            have hr2 : p2 = r :=
              ((Prod.mk.injEq _ _ _ _).mp (Option.some.inj hfind)).2
            rw [← hr2, hterm] at hrterm
            exact absurd hrterm (by decide)
        · intro r hr hterm2 _
          exact hres
      · have hres : (cancel_run s runId).1 = true := by
          simp [cancel_run, hfT, hfR, hterm]
        constructor
        · rw [hres]
          simp only [true_iff]
          exact Or.inr ⟨hnoT, p2, hpm, by simpa using hterm⟩
        · intro r hr hterm2 _
          have hfind := find?_key_of_mem s.runs runId r hR hr
          rw [hp1] at hfR
          rw [hfR] at hfind
          have hr2 : p2 = r :=
            ((Prod.mk.injEq _ _ _ _).mp (Option.some.inj hfind)).2
          rw [← hr2] at hterm2
          exact absurd hterm2 hterm
  | some t =>
    obtain ⟨t1, t2⟩ := t
    have ht1 : t1 = runId := by
      have := List.find?_some hfT
      simpa using this
    have htm : (runId, t2) ∈ s.tasks := by
      rw [← ht1]
      exact List.mem_of_find?_eq_some hfT
    by_cases hdone : t2 = true
    · have hres : cancel_run s runId = (false, s) := by
        simp [cancel_run, hfT, hdone]
      constructor
      · rw [hres]
        simp only [Bool.false_eq_true, false_iff]
        rintro (h | ⟨hnone, _, _, _⟩)
        · have hfind := find?_key_of_mem s.tasks runId false hT h
          rw [ht1] at hfT
          rw [hfT] at hfind
          have : t2 = false :=
            ((Prod.mk.injEq _ _ _ _).mp (Option.some.inj hfind)).2
          rw [hdone] at this
          exact absurd this (by decide)
        · exact hnone t2 htm
      · intro r _ _ _
        exact hres
    · have ht2 : t2 = false := by
        cases t2
        · rfl
        · exact absurd rfl hdone
      have hres : (cancel_run s runId).1 = true := by
        simp [cancel_run, hfT, ht2]
      constructor
      · rw [hres]
        simp only [true_iff]
        exact Or.inl (ht2 ▸ htm)
      · intro r hr hterm2 hquiet
        have := hquiet t2 htm
        exact absurd this hdone

/-- C9 witness: cancelling the finished run `r1` of the concrete state is a
no-op returning false. -/
theorem C9_cancel_contract_witness :
    cancel_run c9Terminal "r1" = (false, c9Terminal) :=
  (C9_cancel_contract c9Terminal "r1" (by decide) (by decide)).2
    ⟨"finished", [], none⟩ (by decide) (by decide) (by decide)

/-- C3 counterexample: with the duplicate edges `START→A`, `START→A` the
node `A` is seeded twice and its callable is invoked twice in the same pass,
appending two log entries for `A` in a single run. -/
theorem C3_duplicate_seed_double_dispatch :
    (run_graph dupSeedEnv []).map (fun o => o.logs.map (·.node)) =
      some ["A", "A"] := rfl

/-- C3 amended: when the edge list contains no duplicate edge and every edge
target is a declared node, each node is executed at most once per run: the
final log carries at most one entry per node id, whatever paths, joins or
routers the graph contains. -/
theorem C3_each_node_runs_at_most_once (env : RunEnv) (init : RunState)
    (hG : GoodCfg env.cfg) :
    ∃ o, run_graph env init = some o ∧ (o.logs.map (·.node)).Nodup := by
  rcases run_sched_total env init with ⟨s', hs⟩
  have hsound := runLoop_sound env (fun s => CoreInv env s ∧ OnceInv s)
    (fun s hP _ _ => ⟨coreInv_runPass env hG s hP.1,
      onceInv_runPass env s hP.1 hP.2⟩)
    (fun s hP hptw => ⟨coreInv_clear env s hP.1 hptw, hP.2⟩)
    (runFuel env.cfg) (initSched env init) s'
    ⟨coreInv_init env init hG, by simp [OnceInv, initSched], by simp [initSched]⟩
    hs
  exact ⟨⟨"finished", s'.logs, s'.state⟩, by simp [run_graph, hs],
    hsound.1.2.1⟩

/-- C3 witness: the amended statement on the clean chain graph. -/
theorem C3_each_node_runs_at_most_once_witness :
    ∃ o, run_graph chainEnv [] = some o ∧ (o.logs.map (·.node)).Nodup :=
  C3_each_node_runs_at_most_once chainEnv [] ⟨by decide, by decide⟩

/-! ### Join claim -/

theorem append_split {α : Type} {l new l1 l2 : List α} {e : α}
    (h : l ++ new = l1 ++ e :: l2) :
    (∃ l2a, l = l1 ++ e :: l2a) ∨
      (∃ l1a, l1 = l ++ l1a ∧ new = l1a ++ e :: l2) := by
  rcases List.append_eq_append_iff.mp h with ⟨a, ha1, ha2⟩ | ⟨c, hc1, hc2⟩
  · exact Or.inr ⟨a, ha1, ha2⟩
  · cases c with
    | nil =>
      refine Or.inr ⟨[], ?_, ?_⟩
      · simp only [List.append_nil] at hc1
        simpa using hc1.symm
      · simp only [List.nil_append] at hc2
        simpa using hc2.symm
    | cons c0 ct =>
      injection hc2 with h1 h2
      exact Or.inl ⟨ct, by rw [hc1, ← h1]⟩

/-- Join invariant preservation through one pass. -/
theorem joinInv_runPass (env : RunEnv) (J : String) (s : SchedState)
    (hG : GoodCfg env.cfg) (hJs : J ∉ seedFrontier env.cfg)
    (hC : CoreInv env s) (hJ : JoinInv env J s) (hl : LogInv s) :
    JoinInv env J (runPass env (filtFrontier s) s) := by
  obtain ⟨ha, hb, _⟩ := hC
  obtain ⟨hj1, hj2⟩ := hJ
  have hFnd : (filtFrontier s).Nodup := by
    rw [filtFrontier_eq]
    exact (List.filter_sublist _).nodup ha
  have hentry := pass_entry_inv env s J (hb J hJs) hFnd
  have hjoin := succPhase_join env (passExec env (filtFrontier s) s).1 J hJs
    hG.1 (filtFrontier s)
    ((passUnknowns env (filtFrontier s)).foldl addProc s.processed) s.deg
    (filtFrontier s) hFnd hentry
    (by
      intro hJF X hX
      rcases foldl_addProc_spec (passUnknowns env (filtFrontier s))
        s.processed with ⟨l0, _, hfold, _⟩
      exact (hfold X).mpr (Or.inl
        (hj1 (mem_filtFrontier.mp hJF).1 X hX)))
  rcases runPass_logs env (filtFrontier s) s with ⟨new, hlogs, _, hsh⟩
  constructor
  · intro hJfr X hX
    have hJmem : J ∈ (passSucc env (filtFrontier s) s).2.2 := by
      rw [runPass_eq] at hJfr
      exact (List.mem_filter.mp hJfr).1
    rw [runPass_eq]
    exact hjoin.2 hJmem X hX
  · intro out l1 l2 hsplit X hX
    rw [hlogs] at hsplit
    rcases append_split hsplit with ⟨l2a, hold⟩ | ⟨l1a, hl1, hnew⟩
    · exact hj2 out l1 l2a hold X hX
    · have hJent : LogEntry.mk J out ∈ new := by
        rw [hnew]
        exact List.mem_append_right _ (List.mem_cons_self _ _)
      have hJF : J ∈ filtFrontier s := (hsh _ hJent).1
      have hXp : X ∈ s.processed := hj1 (mem_filtFrontier.mp hJF).1 X hX
      rcases List.mem_map.mp (hl X hXp) with ⟨eX, heX, heXn⟩
      exact ⟨eX, by rw [hl1]; exact List.mem_append_left _ heX, heXn⟩

/-- C2 counterexample: with the duplicated edge `A→J` the in-degree of `J`
is the deduplicated predecessor count three, but decrements happen per edge,
so `J` runs in the second pass while its predecessor `C` only runs in the
third: the log shows `J` before `C`. -/
theorem C2_duplicate_edge_breaks_join :
    (run_graph dupJoinEnv []).map (fun o => o.logs.map (·.node)) =
      some ["A", "B", "D", "J", "E", "C"] ∧
    predsList dupJoinCfg "J" = ["A", "B", "C"] := ⟨rfl, rfl⟩

/-- C2 amended: when the edge list has no duplicate edge, every edge target
is declared, and `J` is not a direct START target, `J` is dispatched only
after all of its (deduplicated) predecessors completed: every log entry of
`J` is preceded by a log entry of every predecessor of `J`. -/
theorem C2_join_waits_for_predecessors (env : RunEnv) (init : RunState)
    (J : String) (hG : GoodCfg env.cfg) (hJs : J ∉ seedFrontier env.cfg) :
    ∃ o, run_graph env init = some o ∧
      ∀ (out : RunState) (l1 l2 : List LogEntry),
        o.logs = l1 ++ LogEntry.mk J out :: l2 →
        ∀ X ∈ predsList env.cfg J, ∃ e ∈ l1, e.node = X := by
  rcases run_sched_total env init with ⟨s', hs⟩
  have hsound := runLoop_sound env
    (fun s => CoreInv env s ∧ JoinInv env J s ∧ LogInv s)
    (fun s hP _ _ => ⟨coreInv_runPass env hG s hP.1,
      joinInv_runPass env J s hG hJs hP.1 hP.2.1 hP.2.2,
      logInv_runPass env s hP.2.2⟩)
    (fun s hP hptw => ⟨coreInv_clear env s hP.1 hptw,
      ⟨fun hJfr => absurd hJfr (by simp), hP.2.1.2⟩, hP.2.2⟩)
    (runFuel env.cfg) (initSched env init) s'
    ⟨coreInv_init env init hG,
      ⟨fun hJfr => absurd hJfr hJs, by
        intro out l1 l2 hsplit
        simp [initSched] at hsplit⟩,
      by simp [LogInv, initSched]⟩
    hs
  exact ⟨⟨"finished", s'.logs, s'.state⟩, by simp [run_graph, hs],
    hsound.1.2.1.2⟩

/-- C2 witness: the amended statement on the clean join graph, where the
predecessors of `J` are `A`, `B`, `C`. -/
theorem C2_join_waits_for_predecessors_witness :
    ∃ o, run_graph joinEnv [] = some o ∧
      ∀ (out : RunState) (l1 l2 : List LogEntry),
        o.logs = l1 ++ LogEntry.mk "J" out :: l2 →
        ∀ X ∈ predsList joinCfg "J", ∃ e ∈ l1, e.node = X :=
  C2_join_waits_for_predecessors joinEnv [] "J" ⟨by decide, by decide⟩
    (by decide)

/-- A duplicate-free list whose members are exactly one element is that
singleton. -/
theorem eq_singleton_of_mem_iff {l : List String} {P : String}
    (hnd : l.Nodup) (h : ∀ z, z ∈ l ↔ z = P) : l = [P] := by
  cases l with
  | nil => exact absurd ((h P).mpr rfl) (by simp)
  | cons x t =>
    have hx : x = P := (h x).mp (List.mem_cons_self _ _)
    subst hx
    cases t with
    | nil => rfl
    | cons y t2 =>
      have hy : y = x :=
        (h y).mp (List.mem_cons_of_mem _ (List.mem_cons_self _ _))
      exfalso
      rw [List.nodup_cons] at hnd
      refine hnd.1 ?_
      rw [← hy]
      exact List.mem_cons_self _ _

/-- The predecessor list is duplicate-free (it is built by `dedup`). -/
theorem predsList_nodup (g : GraphConfig) (n : String) :
    (predsList g n).Nodup := by
  unfold predsList
  exact List.nodup_dedup _

/-- When every edge target is declared, a pass keeps the frontier and the
processed list inside the declared nodes. -/
theorem nodesInv_runPass (env : RunEnv) (s : SchedState)
    (hTD : ∀ e ∈ env.cfg.edges, e.tgt ∈ env.cfg.nodes)
    (hN : NodesInv env s) : NodesInv env (runPass env (filtFrontier s) s) := by
  obtain ⟨hNp, hNf⟩ := hN
  rcases runPass_processed env (filtFrontier s) s with ⟨_, hpmem, _⟩
  constructor
  · intro x hx
    rcases (hpmem x).mp hx with h | h
    · exact hNp x h
    · exact hNf x (mem_filtFrontier.mp h).1
  · intro x hx
    rcases runPass_frontier_sub env (filtFrontier s) s x hx with ⟨_, h | h⟩
    · exact hNf x (mem_filtFrontier.mp h).1
    · rcases h with ⟨e, he, hxe⟩
      rw [hxe]
      exact hTD e he

theorem nodesInv_clear (env : RunEnv) (s : SchedState) (hN : NodesInv env s) :
    NodesInv env { s with frontier := [] } :=
  ⟨hN.1, by simp⟩

/-- Every node name of the log after a pass is processed after the pass. -/
theorem logSub_runPass (env : RunEnv) (s : SchedState)
    (h : LogNodesInv s) : LogNodesInv (runPass env (filtFrontier s) s) := by
  rcases runPass_processed env (filtFrontier s) s with ⟨_, hpmem, _⟩
  rcases runPass_logs env (filtFrontier s) s with ⟨new, hlogs, _, hsh⟩
  intro x hx
  rw [hlogs, List.map_append] at hx
  rcases List.mem_append.mp hx with h1 | h1
  · exact (hpmem x).mpr (Or.inl (h x h1))
  · rcases List.mem_map.mp h1 with ⟨e, he, hne⟩
    exact (hpmem x).mpr (Or.inr (hne ▸ (hsh e he).1))

/-- A pass preserves the skip invariant of the unchosen router branch `X`:
every edge into `X` leaves the router `R`, and the constant router output
`Y ≠ X` makes `followEdge` reject it. -/
theorem skipInv_runPass (env : RunEnv) (s : SchedState) (X R Y : String)
    (r : RunState → Option String)
    (hrt : env.routers R = some r) (hconst : ∀ st, r st = some Y)
    (hXY : X ≠ Y) (hXseed : X ∉ seedFrontier env.cfg)
    (hXpred : ∀ Z ∈ predsList env.cfg X, Z = R)
    (hS : SkipInv env X s) :
    SkipInv env X (runPass env (filtFrontier s) s) := by
  obtain ⟨hSf, hSp, hSd⟩ := hS
  have hXF : X ∉ filtFrontier s := fun hc => hSf (mem_filtFrontier.mp hc).1
  have hskip : ∀ n ∈ filtFrontier s, ∀ e ∈ edgesFrom env.cfg n, e.tgt = X →
      followEdge env n (passExec env (filtFrontier s) s).1 e = false := by
    intro n _ e he htgt
    have hnR : n = R := by
      rcases mem_edgesFrom.mp he with ⟨he1, hfrm⟩
      exact hXpred n (pred_of_edge he1 hfrm htgt hXseed)
    subst hnR
    have hred : followEdge env n (passExec env (filtFrontier s) s).1 e =
        decide (r (passExec env (filtFrontier s) s).1 = some e.tgt) := by
      unfold followEdge
      rw [hrt]
    rw [hred, hconst, htgt]
    simp
    exact Ne.symm hXY
  have hunt := succPhase_untouched env (passExec env (filtFrontier s) s).1 X
    (filtFrontier s)
    ((passUnknowns env (filtFrontier s)).foldl addProc s.processed)
    s.deg (filtFrontier s) hskip
  rcases runPass_processed env (filtFrontier s) s with ⟨_, hpmem, _⟩
  refine ⟨?_, ?_, ?_⟩
  · intro hc
    rw [runPass_eq] at hc
    simp only [] at hc
    have h2 : X ∈ (passSucc env (filtFrontier s) s).2.2 :=
      (List.mem_filter.mp hc).1
    unfold passSucc at h2
    exact hXF (hunt.2.mp h2)
  · intro hc
    rcases (hpmem X).mp hc with h | h
    · exact hSp h
    · exact hXF h
  · rw [runPass_eq]
    show degGet (passSucc env (filtFrontier s) s).2.1 X =
      degGet (initInDeg env.cfg) X
    unfold passSucc
    rw [hunt.1]
    exact hSd

theorem skipInv_clear (env : RunEnv) (X : String) (s : SchedState)
    (hS : SkipInv env X s) : SkipInv env X { s with frontier := [] } :=
  ⟨by simp, hS.2.1, hS.2.2⟩

/-- A pass preserves the liveness invariant of a node `Q` whose only
predecessor is `P` along an edge that is always followed. -/
theorem liveInv_runPass (env : RunEnv) (s : SchedState) (P Q : String)
    (hQseed : Q ∉ seedFrontier env.cfg) (hQne : Q ≠ "")
    (hQpred : ∀ Z, Z ∈ predsList env.cfg Q ↔ Z = P)
    (hPedge : ∀ st', ∃ e ∈ edgesFrom env.cfg P, e.tgt = Q ∧
      followEdge env P st' e = true)
    (hL : LiveInv P Q s) : LiveInv P Q (runPass env (filtFrontier s) s) := by
  obtain ⟨hL1, hL2⟩ := hL
  rcases runPass_processed env (filtFrontier s) s with ⟨_, hpmem, _⟩
  have hskip : ∀ n ∈ filtFrontier s, n ≠ P → ∀ e ∈ edgesFrom env.cfg n,
      e.tgt = Q →
      followEdge env n (passExec env (filtFrontier s) s).1 e = false := by
    intro n _ hnP e he htgt
    exfalso
    rcases mem_edgesFrom.mp he with ⟨he1, hfrm⟩
    exact hnP ((hQpred n).mp (pred_of_edge he1 hfrm htgt hQseed))
  by_cases hP : P ∈ s.processed
  · have hP' : P ∈ (runPass env (filtFrontier s) s).processed :=
      (hpmem P).mpr (Or.inl hP)
    constructor
    · intro _
      rcases hL1 hP with hQp | hQf
      · exact Or.inl ((hpmem Q).mpr (Or.inl hQp))
      · by_cases hQp2 : Q ∈ s.processed
        · exact Or.inl ((hpmem Q).mpr (Or.inl hQp2))
        · exact Or.inl ((hpmem Q).mpr
            (Or.inr (mem_filtFrontier.mpr ⟨hQf, hQne, hQp2⟩)))
    · intro hc
      exact absurd hP' hc
  · by_cases hPF : P ∈ filtFrontier s
    · obtain ⟨hQnp, hQnf, hQdeg⟩ := hL2 hP
      have hfire := succPhase_fires env (passExec env (filtFrontier s) s).1
        P Q (filtFrontier s)
        ((passUnknowns env (filtFrontier s)).foldl addProc s.processed)
        s.deg (filtFrontier s) hPF hskip
        (hPedge (passExec env (filtFrontier s) s).1) hQdeg
      have hQnp' : Q ∉ (runPass env (filtFrontier s) s).processed := by
        intro hc
        rcases (hpmem Q).mp hc with h | h
        · exact hQnp h
        · exact hQnf (mem_filtFrontier.mp h).1
      constructor
      · intro _
        right
        rw [runPass_eq] at hQnp' ⊢
        simp only [] at hQnp' ⊢
        refine List.mem_filter.mpr ⟨?_, ?_⟩
        · show Q ∈ (passSucc env (filtFrontier s) s).2.2
          unfold passSucc
          exact hfire
        · simpa [List.contains, List.elem_iff] using hQnp'
      · intro hc
        exact absurd ((hpmem P).mpr (Or.inr hPF)) hc
    · obtain ⟨hQnp, hQnf, hQdeg⟩ := hL2 hP
      have hskip2 : ∀ n ∈ filtFrontier s, ∀ e ∈ edgesFrom env.cfg n,
          e.tgt = Q →
          followEdge env n (passExec env (filtFrontier s) s).1 e = false :=
        fun n hn e he htgt =>
          hskip n hn (fun hc => hPF (hc ▸ hn)) e he htgt
      have hunt := succPhase_untouched env
        (passExec env (filtFrontier s) s).1 Q (filtFrontier s)
        ((passUnknowns env (filtFrontier s)).foldl addProc s.processed)
        s.deg (filtFrontier s) hskip2
      have hPnp' : P ∉ (runPass env (filtFrontier s) s).processed := by
        intro hc
        rcases (hpmem P).mp hc with h | h
        · exact hP h
        · exact hPF h
      constructor
      · intro hc
        exact absurd hc hPnp'
      · intro _
        refine ⟨?_, ?_, ?_⟩
        · intro hc
          rcases (hpmem Q).mp hc with h | h
          · exact hQnp h
          · exact hQnf (mem_filtFrontier.mp h).1
        · intro hc
          rw [runPass_eq] at hc
          simp only [] at hc
          have h3 : Q ∈ (passSucc env (filtFrontier s) s).2.2 :=
            (List.mem_filter.mp hc).1
          unfold passSucc at h3
          exact hQnf (mem_filtFrontier.mp (hunt.2.mp h3)).1
        · rw [runPass_eq]
          show degGet (passSucc env (filtFrontier s) s).2.1 Q = 1
          unfold passSucc
          rw [hunt.1]
          exact hQdeg

theorem liveInv_clear (P Q : String) (s : SchedState) (hL : LiveInv P Q s)
    (hptw : ∀ n ∈ s.frontier, n = "" ∨ n ∈ s.processed) (hQne : Q ≠ "") :
    LiveInv P Q { s with frontier := [] } := by
  obtain ⟨hL1, hL2⟩ := hL
  constructor
  · intro hP
    rcases hL1 hP with h | h
    · exact Or.inl h
    · rcases hptw Q h with h2 | h2
      · exact absurd h2 hQne
      · exact Or.inl h2
  · intro hP
    obtain ⟨h1, _, h3⟩ := hL2 hP
    exact ⟨h1, by simp, h3⟩

/-- A pass preserves the error-shape invariant of a node `A` whose callable
always raises: every new log entry of `A` records an error dict. -/
theorem errShape_runPass (env : RunEnv) (s : SchedState) (A : String)
    (fA : NodeFn) (hA : env.callables A = some fA)
    (herr : ∀ st, ∃ m, fA st = Except.error m)
    (hE : ErrShapeInv A s) :
    ErrShapeInv A (runPass env (filtFrontier s) s) := by
  rcases runPass_logs env (filtFrontier s) s with ⟨new, hlogs, _, hsh⟩
  intro e he hnode
  rw [hlogs] at he
  rcases List.mem_append.mp he with h1 | h1
  · exact hE e h1 hnode
  · have hfa : env.callables e.node = some fA := by
      rw [hnode]
      exact hA
    rcases (hsh e h1).2.2 fA hfa with ⟨st0, hout⟩
    rcases herr st0 with ⟨m, hm⟩
    refine ⟨m, ?_⟩
    rw [hout]
    unfold invoke_node
    rw [hm]

/-- C4 counterexample: on `breakRouterCfg` the router `R` has outgoing edges
to exactly `{X, Y}` and its router function returns `Y`, yet the finished
run's log is exactly `[Z, R]`: neither `X` nor `Y` is ever scheduled, because
the undeclared unresolvable seed target `Z` counts toward the processed total
and the safety break fires before the appended `Y` can run.  This refutes
"exactly one of `X`/`Y` is ever scheduled (namely `Y`)". -/
theorem C4_safety_break_strands_chosen_branch :
    (run_graph breakRouterEnv []).map
        (fun o => (o.logs.map (·.node), o.status)) =
      some (["Z", "R"], "finished") ∧
    edgesFrom breakRouterCfg "R" = [⟨"R", "X"⟩, ⟨"R", "Y"⟩] ∧
    breakRouterEnv.routers "R" = some (fun _ => some "Y") :=
  ⟨rfl, rfl, rfl⟩

/-- C4 amended: for a router `R` whose router function constantly returns
`Y`, when every edge target is a declared node, every edge into the unchosen
branch `X` leaves `R`, and `Y` is a declared non-seed node whose only
predecessor is `R`, the run never executes `X`, leaves the stored in-degree
of `X` at its initial value (it is never decremented on account of `R`), and
executes `Y` whenever it executes `R` — so of the two branches exactly the
chosen one is scheduled once `R` runs. -/
theorem C4_unchosen_branch_never_scheduled (env : RunEnv) (init : RunState)
    (R X Y : String) (r : RunState → Option String)
    (hTD : ∀ e ∈ env.cfg.edges, e.tgt ∈ env.cfg.nodes)
    (hrt : env.routers R = some r) (hconst : ∀ st, r st = some Y)
    (hXY : X ≠ Y)
    (hXseed : X ∉ seedFrontier env.cfg)
    (hXpred : ∀ Z ∈ predsList env.cfg X, Z = R)
    (hYseed : Y ∉ seedFrontier env.cfg) (hYne : Y ≠ "")
    (hYnode : Y ∈ env.cfg.nodes)
    (hYpred : ∀ Z, Z ∈ predsList env.cfg Y ↔ Z = R) :
    ∃ s', run_sched env init = some s' ∧
      X ∉ s'.logs.map (·.node) ∧
      degGet s'.deg X = degGet (initInDeg env.cfg) X ∧
      (R ∈ s'.logs.map (·.node) → Y ∈ s'.logs.map (·.node)) := by
  have hRpred : R ∈ predsList env.cfg Y := (hYpred R).mpr rfl
  rcases mem_predsList.mp hRpred with ⟨e0, he0, htgt0, hfrm0, _⟩
  have hPedge : ∀ st', ∃ e ∈ edgesFrom env.cfg R, e.tgt = Y ∧
      followEdge env R st' e = true := by
    intro st'
    refine ⟨e0, mem_edgesFrom.mpr ⟨he0, hfrm0⟩, htgt0, ?_⟩
    have hred : followEdge env R st' e0 = decide (r st' = some e0.tgt) := by
      unfold followEdge
      rw [hrt]
    rw [hred, hconst, htgt0]
    simp
  rcases run_sched_total env init with ⟨s', hs⟩
  have hsingle : predsList env.cfg Y = [R] :=
    eq_singleton_of_mem_iff (predsList_nodup env.cfg Y) hYpred
  have hdegY : degGet (initInDeg env.cfg) Y = 1 := by
    rw [degGet_initInDeg_mem env.cfg Y hYnode, hsingle]
    rfl
  have hsound := runLoop_sound env
    (fun s => SkipInv env X s ∧ LiveInv R Y s ∧ NodesInv env s ∧
      s.processed.Nodup ∧ LogInv s ∧ LogNodesInv s)
    (fun s hP _ _ => by
      rcases runPass_processed env (filtFrontier s) s with ⟨_, _, hnd⟩
      exact ⟨skipInv_runPass env s X R Y r hrt hconst hXY hXseed hXpred hP.1,
        liveInv_runPass env s R Y hYseed hYne hYpred hPedge hP.2.1,
        nodesInv_runPass env s hTD hP.2.2.1,
        hnd hP.2.2.2.1,
        logInv_runPass env s hP.2.2.2.2.1,
        logSub_runPass env s hP.2.2.2.2.2⟩)
    (fun s hP hptw =>
      ⟨skipInv_clear env X s hP.1,
        liveInv_clear R Y s hP.2.1 hptw hYne,
        nodesInv_clear env s hP.2.2.1,
        hP.2.2.2.1, hP.2.2.2.2.1, hP.2.2.2.2.2⟩)
    (runFuel env.cfg) (initSched env init) s'
    ⟨⟨hXseed, by simp [initSched], rfl⟩,
      ⟨fun hc => absurd hc (by simp [initSched]),
        fun _ => ⟨by simp [initSched], hYseed, hdegY⟩⟩,
      ⟨fun x hx => absurd hx (by simp [initSched]), fun x hx => by
        have hx' : x ∈ seedFrontier env.cfg := hx
        unfold seedFrontier at hx'
        rcases List.mem_map.mp hx' with ⟨e, he, hxe⟩
        rw [← hxe]
        exact hTD e (List.mem_filter.mp he).1⟩,
      List.nodup_nil,
      by simp [LogInv, initSched],
      fun x hx => absurd hx (by simp [initSched])⟩
    hs
  obtain ⟨⟨⟨hSf, hSp, hSd⟩, hLive, hNodes, hNd, hLog, hLSub⟩, hexit⟩ := hsound
  refine ⟨s', hs, ?_, hSd, ?_⟩
  · intro hc
    exact hSp (hLSub X hc)
  · intro hR
    have hRp : R ∈ s'.processed := hLSub R hR
    rcases hLive.1 hRp with hYp | hYf
    · exact hLog Y hYp
    · rcases hexit with hfe | hbreak
      · rw [hfe] at hYf
        exact absurd hYf (by simp)
      · exact hLog Y
          (processed_complete env.cfg hNd hNodes.1 hbreak Y hYnode)

/-- C4 witness: the amended statement on the clean router graph, where `R`
routes to `Y` and `X` stays untouched. -/
theorem C4_unchosen_branch_never_scheduled_witness :
    ∃ s', run_sched routerEnv [] = some s' ∧
      "X" ∉ s'.logs.map (·.node) ∧
      degGet s'.deg "X" = degGet (initInDeg routerCfg) "X" ∧
      ("R" ∈ s'.logs.map (·.node) → "Y" ∈ s'.logs.map (·.node)) :=
  C4_unchosen_branch_never_scheduled routerEnv [] "R" "X" "Y"
    (fun _ => some "Y") (by decide) rfl (fun _ => rfl) (by decide)
    (by decide)
    (by
      intro Z hZ
      rw [show predsList routerEnv.cfg "X" = ["R"] from rfl] at hZ
      simpa using hZ)
    (by decide) (by decide) (by decide)
    (by
      intro Z
      rw [show predsList routerEnv.cfg "Y" = ["R"] from rfl]
      simp)

/-- C5 counterexample: on `breakErrCfg` node `A`'s callable raises while
every other node succeeds, and `B` depends only on `A`; the run does finish
and `A`'s log entry records the error, but `B` is never executed: the
undeclared seed target `W` counts toward the processed total, the safety
break fires, and the appended `B` is stranded.  This refutes "every node
depending only on `A` is still executed". -/
theorem C5_safety_break_strands_dependent :
    (run_graph breakErrEnv []).map (fun o => (o.logs, o.status)) =
      some ([⟨"A", [("error", "boom")]⟩, ⟨"W", []⟩], "finished") ∧
    predsList breakErrCfg "B" = ["A"] := ⟨rfl, rfl⟩

/-- C5 amended: when every edge target is a declared node, a node `A` whose
callable always raises (all others succeeding) still yields a finished run,
every log entry of `A` records an error dict in place of an output, and any
declared non-seed node `B` depending only on `A` is still executed — `A`
counts as completed for downstream in-degree purposes. -/
theorem C5_error_recorded_and_downstream_runs (env : RunEnv)
    (init : RunState) (A B : String) (fA : NodeFn)
    (hTD : ∀ e ∈ env.cfg.edges, e.tgt ∈ env.cfg.nodes)
    (hA : env.callables A = some fA)
    (herr : ∀ st, ∃ m, fA st = Except.error m)
    (hArt : env.routers A = none)
    (hBseed : B ∉ seedFrontier env.cfg) (hBne : B ≠ "")
    (hBnode : B ∈ env.cfg.nodes)
    (hBpred : ∀ Z, Z ∈ predsList env.cfg B ↔ Z = A) :
    ∃ o, run_graph env init = some o ∧ o.status = "finished" ∧
      (∀ e ∈ o.logs, e.node = A → ∃ m, e.output = [("error", m)]) ∧
      (A ∈ o.logs.map (·.node) → B ∈ o.logs.map (·.node)) := by
  have hApred : A ∈ predsList env.cfg B := (hBpred A).mpr rfl
  rcases mem_predsList.mp hApred with ⟨e0, he0, htgt0, hfrm0, _⟩
  have hPedge : ∀ st', ∃ e ∈ edgesFrom env.cfg A, e.tgt = B ∧
      followEdge env A st' e = true := by
    intro st'
    refine ⟨e0, mem_edgesFrom.mpr ⟨he0, hfrm0⟩, htgt0, ?_⟩
    unfold followEdge
    rw [hArt]
  rcases run_sched_total env init with ⟨s', hs⟩
  have hsingle : predsList env.cfg B = [A] :=
    eq_singleton_of_mem_iff (predsList_nodup env.cfg B) hBpred
  have hdegB : degGet (initInDeg env.cfg) B = 1 := by
    rw [degGet_initInDeg_mem env.cfg B hBnode, hsingle]
    rfl
  have hsound := runLoop_sound env
    (fun s => LiveInv A B s ∧ NodesInv env s ∧ s.processed.Nodup ∧
      LogInv s ∧ LogNodesInv s ∧ ErrShapeInv A s)
    (fun s hP _ _ => by
      rcases runPass_processed env (filtFrontier s) s with ⟨_, _, hnd⟩
      exact ⟨liveInv_runPass env s A B hBseed hBne hBpred hPedge hP.1,
        nodesInv_runPass env s hTD hP.2.1,
        hnd hP.2.2.1,
        logInv_runPass env s hP.2.2.2.1,
        logSub_runPass env s hP.2.2.2.2.1,
        errShape_runPass env s A fA hA herr hP.2.2.2.2.2⟩)
    (fun s hP hptw =>
      ⟨liveInv_clear A B s hP.1 hptw hBne,
        nodesInv_clear env s hP.2.1,
        hP.2.2.1, hP.2.2.2.1, hP.2.2.2.2.1, hP.2.2.2.2.2⟩)
    (runFuel env.cfg) (initSched env init) s'
    ⟨⟨fun hc => absurd hc (by simp [initSched]),
        fun _ => ⟨by simp [initSched], hBseed, hdegB⟩⟩,
      ⟨fun x hx => absurd hx (by simp [initSched]), fun x hx => by
        have hx' : x ∈ seedFrontier env.cfg := hx
        unfold seedFrontier at hx'
        rcases List.mem_map.mp hx' with ⟨e, he, hxe⟩
        rw [← hxe]
        exact hTD e (List.mem_filter.mp he).1⟩,
      List.nodup_nil,
      by simp [LogInv, initSched],
      fun x hx => absurd hx (by simp [initSched]),
      fun e he => absurd he (by simp [initSched])⟩
    hs
  obtain ⟨⟨hLive, hNodes, hNd, hLog, hLSub, hErr⟩, hexit⟩ := hsound
  refine ⟨⟨"finished", s'.logs, s'.state⟩, by simp [run_graph, hs], rfl,
    hErr, ?_⟩
  intro hAlog
  have hAp : A ∈ s'.processed := hLSub A hAlog
  rcases hLive.1 hAp with hBp | hBf
  · exact hLog B hBp
  · rcases hexit with hfe | hbreak
    · rw [hfe] at hBf
      exact absurd hBf (by simp)
    · exact hLog B
        (processed_complete env.cfg hNd hNodes.1 hbreak B hBnode)

/-- C5 witness: the amended statement on the clean two-node chain, where `A`
raises and `B` depends only on `A`. -/
theorem C5_error_recorded_and_downstream_runs_witness :
    ∃ o, run_graph errChainEnv [] = some o ∧ o.status = "finished" ∧
      (∀ e ∈ o.logs, e.node = "A" → ∃ m, e.output = [("error", m)]) ∧
      ("A" ∈ o.logs.map (·.node) → "B" ∈ o.logs.map (·.node)) :=
  C5_error_recorded_and_downstream_runs errChainEnv [] "A" "B"
    (raiseFn "boom") (by decide) rfl (fun st => ⟨"boom", rfl⟩) rfl
    (by decide) (by decide) (by decide)
    (by
      intro Z
      rw [show predsList errChainEnv.cfg "B" = ["A"] from rfl]
      simp)

end EchoVoice
